import Mathlib

/-!
# go-binsize-treemap: the command in `main.go`

A shallow embedding of `main` and `updateNodeNamesWithByteSize`.

Conventions of the embedding

* A Go `map[string]V` is an association list `GoMap V`; `mapGet` is the lookup
  `m[k]`, `mapSet` the assignment `m[k] = v`.  A `for k, v := range m` loop is a
  left fold over the sequence of keys that the Go runtime yields; that sequence
  is an argument of the embedded function, because Go leaves it unspecified.
* A `float64` is the rational number it denotes (every size in the pipeline is a
  finite, non-negative number).  `%.2f` and `%f` are `fmtFixed 2` and `fmtFixed 6`.
* Functions and constants of the packages `symtab`, `fmtbytecount`, `treemap`
  and `render`, whose bodies are outside `main.go`, are arguments (`Deps`).
  Where a property depends on what size imputation and root collapsing do,
  they are the definitions `ImputeSize` and `CollapseRoot`, written from the
  description in the spec.
* `run` records the calls that `main` makes, in order, next to its output.
-/

namespace BinsizeTreemap

/-! ## Data model -/

/-- The value `treemap.Node`, with the five fields `main.go` reads and writes. -/
structure Node where
  Path : String
  Name : String
  Size : ℚ
  Heat : ℚ
  HasHeat : Bool
deriving DecidableEq

/-- A Go map with string keys, as an association list. -/
abbrev GoMap (α : Type) := List (String × α)

/-- The lookup `m[key]` of a Go map (`none` when the key is absent). -/
def mapGet {α : Type} : GoMap α → String → Option α
  | [], _ => none
  | (k, v) :: m, key => if k = key then some v else mapGet m key

/-- The assignment `m[key] = v` of a Go map. -/
def mapSet {α : Type} : GoMap α → String → α → GoMap α
  | [], key, v => [(key, v)]
  | (k, x) :: m, key, v => if k = key then (k, v) :: m else (k, x) :: mapSet m key v

/-- The keys of a Go map. -/
def mapKeys {α : Type} (m : GoMap α) : List String := m.map Prod.fst

/-- Modelled from the spec: the type `treemap.Tree`, declared outside `main.go`,
which uses its field `Nodes` only.  The spec (3, 9): the storage of the tree is
a mapping from key to node, the parent-child relation is stored as lists of
child keys, and there is one root. -/
structure Tree where
  Nodes : GoMap Node
  To : GoMap (List String)
  Root : String
deriving DecidableEq

/-! ## Formatting -/

/-- The conversion `uint(math.Floor(x))` for `0 ≤ x < 2 ^ 64`, where the value
of the floor is a `uint` and Go defines the conversion.  Outside this range Go
leaves the result to the implementation; the theorems on the text of a label
assume the range. -/
def floorUint (x : ℚ) : Nat := (Rat.floor x).toNat

/-- Rounding of a non-negative rational to the nearest natural number, ties to
the even one: the rounding `fmt` applies to the last printed digit. -/
def roundHalfEven (x : ℚ) : Nat :=
  let f := (Rat.floor x).toNat
  let r := x - f
  if r < 1 / 2 then f else if 1 / 2 < r then f + 1 else if f % 2 = 0 then f else f + 1

/-- The last `n` decimal digits of `m`, most significant first. -/
def digitsFixed : Nat → Nat → List Char
  | 0, _ => []
  | n + 1, m => digitsFixed n (m / 10) ++ [Nat.digitChar (m % 10)]

/-- The sign that `%f` prints. -/
def fmtSign (x : ℚ) : String := if x < 0 then "-" else ""

/-- The verb `%.<prec>f` of `fmt` for a precision `prec > 0` (only 2 and 6
occur): sign, integer part, a point, `prec` digits, the last one rounded. -/
def fmtFixed (prec : Nat) (x : ℚ) : String :=
  let m := roundHalfEven (|x| * 10 ^ prec)
  fmtSign x ++ Nat.repr (m / 10 ^ prec) ++ "." ++ String.mk (digitsFixed prec (m % 10 ^ prec))

/-- Modelled from the spec: `fmtbytecount.ByteCountIEC`, whose body is not in
`main.go`; the spec asks for a human-readable byte count in binary (IEC) units,
as in `12.34MiB`.  Used to evaluate the theorems on concrete trees only. -/
def byteCountIEC (b : Nat) : ℚ × String :=
  if b < 1024 then (b, "")
  else if b < 1024 ^ 2 then ((b : ℚ) / 1024, "Ki")
  else if b < 1024 ^ 3 then ((b : ℚ) / 1024 ^ 2, "Mi")
  else if b < 1024 ^ 4 then ((b : ℚ) / 1024 ^ 3, "Gi")
  else if b < 1024 ^ 5 then ((b : ℚ) / 1024 ^ 4, "Ti")
  else if b < 1024 ^ 6 then ((b : ℚ) / 1024 ^ 5, "Pi")
  else ((b : ℚ) / 1024 ^ 6, "Ei")

/-- The shape of a number printed with exactly `prec` decimals: an optional
minus sign, one or more digits, a point, and `prec` digits. -/
def fixedText (prec : Nat) (s : String) : Bool :=
  let cs := match s.data with
    | '-' :: r => r
    | cs => cs
  let whole := cs.takeWhile Char.isDigit
  !whole.isEmpty &&
    match cs.dropWhile Char.isDigit with
    | '.' :: frac => frac.length == prec && frac.all Char.isDigit
    | _ => false

/-! ## `updateNodeNamesWithByteSize` -/

/-- The text `%.2f%sB` of the byte count of a size (lines 113, 114 and 118). -/
def sizeLabel (ByteCountIEC : Nat → ℚ × String) (size : ℚ) : String :=
  let (count, suffix) := ByteCountIEC (floorUint size)
  fmtFixed 2 count ++ suffix ++ "B"

/-- The node that one iteration of the loop stores under `name` (lines 113-127). -/
def relabel (ByteCountIEC : Nat → ℚ × String) (RootNodeName : String)
    (name : String) (node : Node) : Node :=
  let nameWithSize := node.Name ++ " " ++ sizeLabel ByteCountIEC node.Size
  -- for secret root just size
  let nameWithSize :=
    if name = RootNodeName then sizeLabel ByteCountIEC node.Size else nameWithSize
  { Path := node.Path
    Name := nameWithSize
    Size := node.Size
    Heat := node.Heat
    HasHeat := node.HasHeat }

/-- One iteration of the loop of `updateNodeNamesWithByteSize`, for the key
`name` that the runtime yields together with the node stored under it. -/
def updateStep (ByteCountIEC : Nat → ℚ × String) (RootNodeName : String)
    (tree : Tree) (name : String) : Tree :=
  match mapGet tree.Nodes name with
  | some node =>
    { tree with Nodes := mapSet tree.Nodes name (relabel ByteCountIEC RootNodeName name node) }
  | none => tree

/-- The function `updateNodeNamesWithByteSize`; `order` is the sequence of keys
that `range tree.Nodes` yields. -/
def updateNodeNamesWithByteSize (ByteCountIEC : Nat → ℚ × String) (RootNodeName : String)
    (order : List String) (tree : Tree) : Tree :=
  order.foldl (updateStep ByteCountIEC RootNodeName) tree

/-- The part of a node that label formatting must leave alone. -/
def Node.frame (n : Node) : String × ℚ × ℚ × Bool := (n.Path, n.Size, n.Heat, n.HasHeat)

/-! ## Command-line flags (lines 31-61) -/

/-- The variables that `main` declares in lines 31-44. -/
structure Vars where
  coverprofile : String
  w : ℚ
  h : ℚ
  marginBox : ℚ
  paddingBox : ℚ
  padding : ℚ
  maxDepth : Nat
  includeSymbols : Bool
  includeUnknown : Bool
  includePureSymbols : Bool
  outputCSV : Bool
  verbosity : Nat
deriving DecidableEq

/-- A parsed flag value, of one of the four kinds that `main` registers. -/
inductive FlagValue where
  | str (s : String)
  | float (x : ℚ)
  | uint (n : Nat)
  | bool (b : Bool)
deriving DecidableEq

/-- The variables after the registrations of lines 50-60: every `flag.XxxVar`
call stores its default in the variable it binds; `includeUnknown` is bound by
none of them and keeps the zero value of its declaration. -/
def registered : Vars :=
  { coverprofile := ""
    w := 1028
    h := 640
    marginBox := 4
    paddingBox := 4
    padding := 16
    maxDepth := 0
    includeSymbols := false
    includeUnknown := false
    includePureSymbols := false
    outputCSV := false
    verbosity := 0 }

/-- The effect of one flag of the command line: the flag named `name`, when it
is registered (lines 50-60) and the value is of its kind, writes the variable
it is bound to; otherwise `flag.Parse` fails. -/
def flagSet (v : Vars) (name : String) (value : FlagValue) : Option Vars :=
  match value with
  | .str s =>
    if name = "coverprofile" then some { v with coverprofile := s }
    else none
  | .float x =>
    if name = "w" then some { v with w := x }
    else if name = "h" then some { v with h := x }
    else if name = "margin-box" then some { v with marginBox := x }
    else if name = "padding-box" then some { v with paddingBox := x }
    else if name = "padding" then some { v with padding := x }
    else none
  | .uint n =>
    if name = "max-depth" then some { v with maxDepth := n }
    else if name = "v" then some { v with verbosity := n }
    else none
  | .bool b =>
    if name = "symbols" then some { v with includeSymbols := b }
    else if name = "symbols-pure" then some { v with includePureSymbols := b }
    else if name = "csv" then some { v with outputCSV := b }
    else none

/-- The flags of a command line applied in order, from the variables `v`. -/
def flagApply : Vars → List (String × FlagValue) → Option Vars
  | v, [] => some v
  | v, (name, value) :: rest =>
    match flagSet v name value with
    | some v1 => flagApply v1 rest
    | none => none

/-- The call `flag.Parse()` on a command line given as its sequence of flags
(name and value); `none` when the flag package rejects it and exits. -/
def flagParse (args : List (String × FlagValue)) : Option Vars := flagApply registered args

/-- The number that the last occurrence of the unsigned flag `name` carries. -/
def lastUint (name : String) : List (String × FlagValue) → Option Nat
  | [] => none
  | (k, x) :: rest =>
    match lastUint name rest with
    | some n => some n
    | none =>
      match x with
      | .uint n => if k = name then some n else none
      | _ => none

/-- The truth value that the last occurrence of the boolean flag `name` carries. -/
def lastBool (name : String) : List (String × FlagValue) → Option Bool
  | [] => none
  | (k, x) :: rest =>
    match lastBool name rest with
    | some b => some b
    | none =>
      match x with
      | .bool b => if k = name then some b else none
      | _ => none

/-- The value of a flag: what the command line says last, else the default. -/
def flagOr {α : Type} (default : α) : Option α → α
  | some a => a
  | none => default

/-! ## `main` (lines 63-108) -/

/-- The value `symtab.BasicSymtabConverter` that `main` builds in lines 79-85. -/
structure BasicSymtabConverter where
  MaxDepth : Nat
  IncludeSymbols : Bool
  IncludeUnknown : Bool
  IncludePureSymbols : Bool
  Verbosity : Nat
deriving DecidableEq

/-- What `main` calls in other packages: `S` is `symtab.SymtabFile`, `E` the
error type and `U` the value that `NewUITreeMap` returns. -/
structure Deps (S E U : Type) where
  /-- `symtab.GoSymtabParser{Verbosity}.ParseSymtab(lines)`: a pointer and an error. -/
  ParseSymtab : Nat → List String → Option S × Option E
  /-- `converter.SymtabFileToTreemap(file)`. -/
  SymtabFileToTreemap : BasicSymtabConverter → S → Tree
  /-- `treemap.SumSizeImputer{EmptyLeafSize}.ImputeSize(tree)`. -/
  ImputeSize : ℚ → Tree → Tree
  /-- `treemap.CollapseRoot(&tree)`. -/
  CollapseRoot : Tree → Tree
  /-- `render.UITreeMapBuilder{NoneColorer, grey}.NewUITreeMap(tree, w, h, ...)`. -/
  NewUITreeMap : Tree → ℚ → ℚ → ℚ → ℚ → ℚ → U
  /-- `render.SVGRenderer{}.Render(spec, w, h)`. -/
  Render : U → ℚ → ℚ → String
  /-- `fmtbytecount.ByteCountIEC`. -/
  ByteCountIEC : Nat → ℚ × String
  /-- `symtab.RootNodeName`. -/
  RootNodeName : String

/-- The converter of lines 79-85. -/
def converterOf (v : Vars) : BasicSymtabConverter :=
  { MaxDepth := v.maxDepth
    IncludeSymbols := v.includeSymbols
    IncludeUnknown := v.includeUnknown
    IncludePureSymbols := v.includePureSymbols
    Verbosity := v.verbosity }

/-- The tree of line 86. -/
def convertedTree {S E U : Type} (d : Deps S E U) (v : Vars) (symtabFile : S) : Tree :=
  d.SymtabFileToTreemap (converterOf v) symtabFile

/-- The tree after lines 88-89.  `ImputeSize` receives the tree by value: it
can write the two maps, and the root key of `main` stays what it was. -/
def imputedTree {S E U : Type} (d : Deps S E U) (v : Vars) (symtabFile : S) : Tree :=
  let tree := convertedTree d v symtabFile
  let imputed := d.ImputeSize 0 tree
  { Nodes := imputed.Nodes, To := imputed.To, Root := tree.Root }

/-- The tree after line 91; `range1` is the order in which the runtime yields
the keys of a map to the loop of `updateNodeNamesWithByteSize`. -/
def labelledTree {S E U : Type} (d : Deps S E U) (range1 : GoMap Node → List String)
    (v : Vars) (symtabFile : S) : Tree :=
  let tree := imputedTree d v symtabFile
  updateNodeNamesWithByteSize d.ByteCountIEC d.RootNodeName (range1 tree.Nodes) tree

/-- The tree after line 92, which `main` prints or lays out. -/
def normalizedTree {S E U : Type} (d : Deps S E U) (range1 : GoMap Node → List String)
    (v : Vars) (symtabFile : S) : Tree :=
  d.CollapseRoot (labelledTree d range1 v symtabFile)

/-- The arguments of the calls `fmt.Printf("%s,%f\n", name, node.Size)` of the
loop in lines 95-97, in the order `order` in which `range` yields the keys. -/
def csvRecords (order : List String) (tree : Tree) : List (String × ℚ) :=
  order.filterMap (fun name => (mapGet tree.Nodes name).map (fun node => (name, node.Size)))

/-- The text `fmt.Printf("%s,%f\n", name, size)` writes. -/
def csvLine (r : String × ℚ) : String := r.1 ++ "," ++ fmtFixed 6 r.2 ++ "\n"

/-- Everything the loop of lines 95-97 writes to standard output. -/
def csvOutput (order : List String) (tree : Tree) : String :=
  String.join ((csvRecords order tree).map csvLine)

/-- The calls that `main` makes, each with the configuration it receives. -/
inductive Stage where
  | parseSymtab (verbosity : Nat)
  | symtabFileToTreemap (converter : BasicSymtabConverter)
  | imputeSize (emptyLeafSize : ℚ)
  | updateNodeNamesWithByteSize
  | collapseRoot
  | printCSV
  | newUITreeMap (w h marginBox paddingBox padding : ℚ)
  | render (w h : ℚ)
deriving DecidableEq

/-- The maximum depth that a call receives, if it receives one. -/
def Stage.maxDepth? : Stage → Option Nat
  | .symtabFileToTreemap c => some c.MaxDepth
  | _ => none

/-- The symbol filters that a call receives, if it receives them. -/
def Stage.filters? : Stage → Option (Bool × Bool × Bool)
  | .symtabFileToTreemap c => some (c.IncludeSymbols, c.IncludeUnknown, c.IncludePureSymbols)
  | _ => none

/-- What a run of `main` leaves behind: whether it ended in `log.Fatal`, the
bytes on standard output, and the calls it made, in order. -/
structure Run where
  fatal : Bool
  stdout : String
  calls : List Stage
deriving DecidableEq

/-- The calls of lines 86-92. -/
def normalizeCalls (v : Vars) : List Stage :=
  [.symtabFileToTreemap (converterOf v), .imputeSize 0, .updateNodeNamesWithByteSize, .collapseRoot]

/-- Lines 63-108 of `main`, after `flag.Parse`: `lines` is standard input,
`range1` and `range2` the orders in which the runtime yields the keys of a
map to the loop of `updateNodeNamesWithByteSize` and to the loop of lines 95-97. -/
def run {S E U : Type} (d : Deps S E U) (range1 range2 : GoMap Node → List String)
    (v : Vars) (lines : List String) : Run :=
  match d.ParseSymtab v.verbosity lines with
  | (some symtabFile, none) =>
    let tree := normalizedTree d range1 v symtabFile
    if v.outputCSV then
      { fatal := false
        stdout := csvOutput (range2 tree.Nodes) tree
        calls := .parseSymtab v.verbosity :: normalizeCalls v ++ [.printCSV] }
    else
      let spec := d.NewUITreeMap tree v.w v.h v.marginBox v.paddingBox v.padding
      { fatal := false
        stdout := d.Render spec v.w v.h
        calls := .parseSymtab v.verbosity :: normalizeCalls v ++
          [.newUITreeMap v.w v.h v.marginBox v.paddingBox v.padding, .render v.w v.h] }
  | _ =>
    -- err != nil || symtabFile == nil
    { fatal := true, stdout := "", calls := [.parseSymtab v.verbosity] }

/-- The whole of `main` on a command line and a standard input; `none` when
`flag.Parse` rejects the command line and exits. -/
def main {S E U : Type} (d : Deps S E U) (range1 range2 : GoMap Node → List String)
    (args : List (String × FlagValue)) (lines : List String) : Option Run :=
  match flagParse args with
  | some v => some (run d range1 range2 v lines)
  | none => none

/-- The position of the first call that receives the maximum depth. -/
def depthLimitAt (calls : List Stage) : Nat :=
  calls.findIdx (fun s => s.maxDepth?.isSome)

/-- The position of the call of `ImputeSize`. -/
def imputeAt (calls : List Stage) : Nat :=
  calls.findIdx (fun s => match s with
    | .imputeSize _ => true
    | _ => false)

/-- The arguments of the `fmt.Printf` calls of a run of `main` in CSV mode. -/
def runRecords {S E U : Type} (d : Deps S E U) (range1 range2 : GoMap Node → List String)
    (v : Vars) (symtabFile : S) : List (String × ℚ) :=
  csvRecords (range2 (normalizedTree d range1 v symtabFile).Nodes)
    (normalizedTree d range1 v symtabFile)

/-- A runtime order is valid for a map when it yields every key once. -/
def ValidRange (range : GoMap Node → List String) (m : GoMap Node) : Prop :=
  (range m).Perm (mapKeys m)

/-! ## The normalizer of the `treemap` package, from the spec -/

/-- The child keys stored under a key of the edge map. -/
def kids (edges : GoMap (List String)) (key : String) : List String :=
  match mapGet edges key with
  | some cs => cs
  | none => []

/-- The child keys of a key of a tree. -/
def children (t : Tree) (key : String) : List String := kids t.To key

/-- The size stored under a key (the zero value when no node is stored). -/
def sizeAt (t : Tree) (key : String) : ℚ :=
  match mapGet t.Nodes key with
  | some node => node.Size
  | none => 0

/-- Modelled from the spec: the size that imputation assigns to an unset node
(4.3, step 2), the sum of the sizes of its children, or the configured
empty-leaf default when it has none. -/
def target (emptyLeafSize : ℚ) (t : Tree) (key : String) : ℚ :=
  if children t key = [] then emptyLeafSize else ((children t key).map (sizeAt t)).sum

/-- Modelled from the spec: the assignment of the imputed size to the node
under `key`, once its children are resolved; only a node whose size is unset
(zero, 4.2) is written. -/
def resolve (emptyLeafSize : ℚ) (t : Tree) (key : String) : Tree :=
  match mapGet t.Nodes key with
  | some node =>
    if node.Size = 0 then
      { t with Nodes := mapSet t.Nodes key { node with Size := target emptyLeafSize t key } }
    else t
  | none => t

/-- Modelled from the spec: `treemap.SumSizeImputer.ImputeSizeNode`, whose body
is not in `main.go`.  The spec (4.3, step 2): a post-order traversal in which
every node whose size is unset is assigned the sum of its children's already
resolved sizes, and a childless node with unset size resolves to the
configured empty-leaf default.  `fuel` bounds the depth of the recursion. -/
def imputeNode (emptyLeafSize : ℚ) : Nat → Tree → String → Tree
  | 0, t, _ => t
  | fuel + 1, t, key =>
    resolve emptyLeafSize
      ((children t key).foldl (fun acc c => imputeNode emptyLeafSize fuel acc c) t) key

/-- Modelled from the spec: `treemap.SumSizeImputer{EmptyLeafSize}.ImputeSize`,
the traversal of `imputeNode` from the root; a path from the root of a tree
has at most one key more than the edge map has entries. -/
def ImputeSize (emptyLeafSize : ℚ) (t : Tree) : Tree :=
  imputeNode emptyLeafSize (t.To.length + 1) t t.Root

/-- The removal `delete(m, key)` of a key from a Go map. -/
def mapErase {α : Type} : GoMap α → String → GoMap α
  | [], _ => []
  | (k, v) :: m, key => if k = key then mapErase m key else (k, v) :: mapErase m key

/-- Modelled from the spec: the loop of `treemap.CollapseRoot` (4.3, step 4),
at most `fuel` times: while the root has exactly one child, the root is
removed (3) and that child becomes the root. -/
def collapseRoot : Nat → Tree → Tree
  | 0, t => t
  | fuel + 1, t =>
    match children t t.Root with
    | [child] =>
      collapseRoot fuel
        { Nodes := mapErase t.Nodes t.Root, To := mapErase t.To t.Root, Root := child }
    | _ => t

/-- Modelled from the spec: `treemap.CollapseRoot`, whose body is not in
`main.go`.  The spec (4.3, step 4, and 3): if the root has exactly one child,
the root is removed and replaced with that child, repeatedly while the
single-child chain continues; a root with several children is kept.  Every
round removes an entry of the edge map, so its length bounds the rounds. -/
def CollapseRoot (t : Tree) : Tree := collapseRoot t.To.length t

/-- The total size of the symbols of a converter output: the converter sets a
size on the terminal node of a symbol record only (spec 4.2), so the total is
the sum of the sizes stored in its nodes. -/
def symbolTotal (t : Tree) : ℚ := (t.Nodes.map (fun e => e.2.Size)).sum

/-- The keys below a key: `Reach edges a b` when `b` is `a` or a descendant of `a`. -/
inductive Reach (edges : GoMap (List String)) (a : String) : String → Prop where
  | refl : Reach edges a a
  | step {b c : String} : Reach edges a b → c ∈ kids edges b → Reach edges a c

/-- A tree whose edges descend: `rank` decreases from every key to its
children, and the rank of the root is at most the number of entries of the
edge map.  The height of the keys is such a rank in every finite tree. -/
def Ranked (t : Tree) (rank : String → Nat) : Prop :=
  (∀ p c, c ∈ children t p → rank c < rank p) ∧ rank t.Root ≤ t.To.length

/-- Whether a node is stored under a key. -/
def present (t : Tree) (key : String) : Bool := (mapGet t.Nodes key).isSome

/-- A subtree on which imputation has nothing left to do: every stored node
below `key` whose size is zero would be assigned zero again. -/
def Stable (emptyLeafSize : ℚ) (t : Tree) (key : String) : Prop :=
  ∀ z, Reach t.To key z → present t z = true → sizeAt t z = 0 → target emptyLeafSize t z = 0

/-- The record of the assignments made so far, from the tree `t0` at the start:
a node that was unset in `t0` and has a size in `t` has the imputed size, and
the subtrees of its children are resolved. -/
def Imputed (emptyLeafSize : ℚ) (t0 t : Tree) : Prop :=
  ∀ x, present t x = true → sizeAt t0 x = 0 → sizeAt t x ≠ 0 →
    sizeAt t x = target emptyLeafSize t x ∧ ∀ c ∈ children t x, Stable emptyLeafSize t c

/-- What imputation leaves alone between two trees: the edges, the root key,
which nodes are stored, and every size that is set. -/
def Frame (t t1 : Tree) : Prop :=
  t1.To = t.To ∧ t1.Root = t.Root ∧ (∀ y, present t1 y = present t y)
    ∧ ∀ y, sizeAt t y ≠ 0 → sizeAt t1 y = sizeAt t y

/-! ## Concrete inputs -/

/-- A converter output for the records `10 T main.f`, `5 T main.f.func1` and
`1 T main.g` as the spec builds it (4.2): every prefix of a path is a node and
the size is set on the terminal node of each record, so `f` carries 10 bytes of
its own and has the nested symbol `func1` of 5 bytes as its child. -/
def nestedInput : Tree :=
  { Nodes := [("", ⟨"", "", 0, 0, false⟩),
              ("/main", ⟨"/main", "main", 0, 0, false⟩),
              ("/main/f", ⟨"/main/f", "f", 10, 0, false⟩),
              ("/main/f/func1", ⟨"/main/f/func1", "func1", 5, 0, false⟩),
              ("/main/g", ⟨"/main/g", "g", 1, 0, false⟩)]
    To := [("", ["/main"]), ("/main", ["/main/f", "/main/g"]), ("/main/f", ["/main/f/func1"])]
    Root := "" }

/-- The height of the keys of `sampleInput`. -/
def sampleRank (key : String) : Nat := if key = "" then 1 else 0

/-- A stand-in for the packages outside `main.go`, to evaluate `main` on
concrete input: the parser accepts every non-empty input, the converter
returns `tree`, the normalizer is the one modelled from the spec. -/
def testDeps (tree : Tree) : Deps Unit String String :=
  { ParseSymtab := fun _ lines => if lines = [] then (none, some "no symbols") else (some (), none)
    SymtabFileToTreemap := fun _ _ => tree
    ImputeSize := ImputeSize
    CollapseRoot := CollapseRoot
    NewUITreeMap := fun _ _ _ _ _ _ => "ui"
    Render := fun _ _ _ => "<svg></svg>"
    ByteCountIEC := byteCountIEC
    RootNodeName := "" }

/-- A converter output with the synthetic root and two packages: only the
leaves carry a size. -/
def sampleInput : Tree :=
  { Nodes := [("", ⟨"", "", 0, 0, false⟩),
              ("/a", ⟨"/a", "a", 2048, 0, false⟩),
              ("/b", ⟨"/b", "b", 1536, 0, false⟩)]
    To := [("", ["/a", "/b"])]
    Root := "" }

/-- The tree of `fractionTree` as a converter returns it: the root is unset. -/
def fractionInput : Tree :=
  { Nodes := [("", ⟨"", "", 0, 0, false⟩),
              ("/a", ⟨"/a", "a", 4097 / 2, 0, false⟩),
              ("/b", ⟨"/b", "b", 6145 / 4, 0, false⟩)]
    To := [("", ["/a", "/b"])]
    Root := "" }

/-- The height of the keys of `fractionInput`. -/
def fractionRank (key : String) : Nat := if key = "" then 1 else 0

/-- A converter output for the records `10 T a.f`, `5 T a.f.func1` and
`1 T b.g` as the spec builds it (4.2): two packages below the synthetic root,
the size set on the terminal node of each record, 16 bytes of symbols in all. -/
def totalInput : Tree :=
  { Nodes := [("", ⟨"", "", 0, 0, false⟩),
              ("/a", ⟨"/a", "a", 0, 0, false⟩),
              ("/a/f", ⟨"/a/f", "f", 10, 0, false⟩),
              ("/a/f/func1", ⟨"/a/f/func1", "func1", 5, 0, false⟩),
              ("/b", ⟨"/b", "b", 0, 0, false⟩),
              ("/b/g", ⟨"/b/g", "g", 1, 0, false⟩)]
    To := [("", ["/a", "/b"]), ("/a", ["/a/f"]), ("/a/f", ["/a/f/func1"]), ("/b", ["/b/g"])]
    Root := "" }

/-- The variables after the flags `-max-depth 3 -csv -symbols`. -/
def depthVars : Vars :=
  { registered with maxDepth := 3, outputCSV := true, includeSymbols := true }

/-- The default variables with the flag `-max-depth 1`. -/
def depthOneVars : Vars := { registered with maxDepth := 1 }

/-- The normalized tree of the record `10 T only.Sym` as the spec describes it:
the node `only` of size 10 with the one child `Sym` of size 10, relabelled. -/
def onlyTree : Tree :=
  { Nodes := [("only", ⟨"only", "only 10.00B", 10, 0, false⟩),
              ("only/Sym", ⟨"only/Sym", "Sym 10.00B", 10, 0, false⟩)]
    To := [("only", ["only/Sym"])]
    Root := "only" }

/-- A runtime that yields the keys of a map in the reverse of the stored order. -/
def reverseRange (m : GoMap Node) : List String := (mapKeys m).reverse

/-- The default variables with CSV output switched on. -/
def csvVars : Vars := { registered with outputCSV := true }

/-! ## Lemmas on maps -/

theorem mapGet_mapSet {α : Type} (m : GoMap α) (k key : String) (v : α) :
    mapGet (mapSet m k v) key = if k = key then some v else mapGet m key := by
  induction m with
  | nil => simp [mapSet, mapGet]
  | cons e m ih =>
    obtain ⟨k0, x⟩ := e
    by_cases h0 : k0 = k
    · subst h0
      by_cases h1 : k0 = key <;> simp [mapSet, mapGet, h1]
    · by_cases h1 : k0 = key
      · subst h1
        have : ¬ k = k0 := fun h => h0 h.symm
        simp [mapSet, mapGet, h0, this]
      · simp [mapSet, mapGet, h0, h1, ih]

theorem mapSet_map_of_get {α β : Type} (f : String → α → β) (m : GoMap α) (k : String)
    (x v : α) (hget : mapGet m k = some x) (hf : f k v = f k x) :
    (mapSet m k v).map (fun e => (e.1, f e.1 e.2)) = m.map (fun e => (e.1, f e.1 e.2)) := by
  induction m with
  | nil => simp [mapGet] at hget
  | cons e m ih =>
    obtain ⟨k0, y⟩ := e
    by_cases h0 : k0 = k
    · subst h0
      simp [mapGet] at hget
      subst hget
      simp [mapSet, hf]
    · simp [mapGet, h0] at hget
      simp [mapSet, h0, ih hget]

theorem mapGet_map {α β : Type} (f : String → α → β) (m : GoMap α) (key : String) :
    mapGet (m.map (fun e => (e.1, f e.1 e.2))) key = (mapGet m key).map (f key) := by
  induction m with
  | nil => simp [mapGet]
  | cons e m ih =>
    obtain ⟨k0, y⟩ := e
    by_cases h0 : k0 = key
    · subst h0; simp [mapGet]
    · simp [mapGet, h0, ih]

theorem mapKeys_map {α β : Type} (f : String → α → β) (m : GoMap α) :
    mapKeys (m.map (fun e => (e.1, f e.1 e.2))) = mapKeys m := by
  simp [mapKeys, List.map_map, Function.comp_def]

/-! ## Lemmas on `updateNodeNamesWithByteSize` -/

theorem relabel_frame (bc : Nat → ℚ × String) (root name : String) (node : Node) :
    (relabel bc root name node).frame = node.frame := rfl

theorem updateStep_To (bc : Nat → ℚ × String) (root : String) (t : Tree) (name : String) :
    (updateStep bc root t name).To = t.To ∧ (updateStep bc root t name).Root = t.Root := by
  unfold updateStep
  cases mapGet t.Nodes name <;> simp

theorem updateStep_frames (bc : Nat → ℚ × String) (root : String) (t : Tree) (name : String) :
    (updateStep bc root t name).Nodes.map (fun e => (e.1, e.2.frame))
      = t.Nodes.map (fun e => (e.1, e.2.frame)) := by
  unfold updateStep
  cases h : mapGet t.Nodes name with
  | none => rfl
  | some node =>
    exact mapSet_map_of_get (fun _ n => n.frame) t.Nodes name node _ h
      (relabel_frame bc root name node)

theorem update_frames (bc : Nat → ℚ × String) (root : String) (order : List String) (t : Tree) :
    (updateNodeNamesWithByteSize bc root order t).Nodes.map (fun e => (e.1, e.2.frame))
        = t.Nodes.map (fun e => (e.1, e.2.frame))
      ∧ (updateNodeNamesWithByteSize bc root order t).To = t.To
      ∧ (updateNodeNamesWithByteSize bc root order t).Root = t.Root := by
  induction order generalizing t with
  | nil => exact ⟨rfl, rfl, rfl⟩
  | cons name rest ih =>
    have h := ih (updateStep bc root t name)
    have hs := updateStep_To bc root t name
    simp only [updateNodeNamesWithByteSize, List.foldl_cons] at h ⊢
    refine ⟨h.1.trans (updateStep_frames bc root t name), h.2.1.trans hs.1, h.2.2.trans hs.2⟩

theorem update_keys (bc : Nat → ℚ × String) (root : String) (order : List String) (t : Tree) :
    mapKeys (updateNodeNamesWithByteSize bc root order t).Nodes = mapKeys t.Nodes := by
  have h1 := mapKeys_map (fun _ (n : Node) => n.frame)
    (updateNodeNamesWithByteSize bc root order t).Nodes
  have h2 := mapKeys_map (fun _ (n : Node) => n.frame) t.Nodes
  rw [← h1, ← h2, (update_frames bc root order t).1]

theorem updateStep_get (bc : Nat → ℚ × String) (root : String) (t : Tree) (name key : String) :
    mapGet (updateStep bc root t name).Nodes key
      = if name = key then (mapGet t.Nodes key).map (relabel bc root key)
        else mapGet t.Nodes key := by
  unfold updateStep
  by_cases hk : name = key
  · subst hk
    cases h : mapGet t.Nodes name with
    | none => simp [h]
    | some node => simp [mapGet_mapSet]
  · cases h : mapGet t.Nodes name with
    | none => simp [hk]
    | some node => simp [mapGet_mapSet, hk]

theorem update_get_not_mem (bc : Nat → ℚ × String) (root : String) (order : List String)
    (t : Tree) (key : String) (hk : key ∉ order) :
    mapGet (updateNodeNamesWithByteSize bc root order t).Nodes key = mapGet t.Nodes key := by
  induction order generalizing t with
  | nil => rfl
  | cons name rest ih =>
    have hne : ¬ name = key := fun h => hk (by simp [h])
    have hrest : key ∉ rest := fun h => hk (by simp [h])
    have h := ih (updateStep bc root t name) hrest
    simp only [updateNodeNamesWithByteSize, List.foldl_cons] at h ⊢
    rw [h, updateStep_get, if_neg hne]

theorem update_get_mem (bc : Nat → ℚ × String) (root : String) (order : List String)
    (t : Tree) (key : String) (hnd : order.Nodup) (hk : key ∈ order) :
    mapGet (updateNodeNamesWithByteSize bc root order t).Nodes key
      = (mapGet t.Nodes key).map (relabel bc root key) := by
  induction order generalizing t with
  | nil => simp at hk
  | cons name rest ih =>
    have hnd2 := List.nodup_cons.mp hnd
    by_cases hne : name = key
    · subst hne
      have h := update_get_not_mem bc root rest (updateStep bc root t name) name hnd2.1
      simp only [updateNodeNamesWithByteSize, List.foldl_cons] at h ⊢
      rw [h, updateStep_get, if_pos rfl]
    · have hrest : key ∈ rest := by
        rcases List.mem_cons.mp hk with h | h
        · exact absurd h.symm hne
        · exact h
      have h := ih (updateStep bc root t name) hnd2.2 hrest
      simp only [updateNodeNamesWithByteSize, List.foldl_cons] at h ⊢
      rw [h, updateStep_get, if_neg hne]


/-! ## Lemmas on formatting -/

theorem digitChar_isDigit : ∀ d, d < 10 → (Nat.digitChar d).isDigit = true := by decide

theorem digitsFixed_length (n m : Nat) : (digitsFixed n m).length = n := by
  induction n generalizing m with
  | zero => rfl
  | succ n ih => simp [digitsFixed, ih]

theorem digitsFixed_isDigit (n m : Nat) : ∀ c ∈ digitsFixed n m, c.isDigit = true := by
  induction n generalizing m with
  | zero => simp [digitsFixed]
  | succ n ih =>
    intro c hc
    simp only [digitsFixed, List.mem_append, List.mem_singleton] at hc
    rcases hc with hc | hc
    · exact ih _ c hc
    · subst hc
      exact digitChar_isDigit _ (Nat.mod_lt _ (by decide))

theorem toDigitsCore_isDigit (fuel n : Nat) (ds : List Char)
    (hds : ∀ c ∈ ds, c.isDigit = true) :
    ∀ c ∈ Nat.toDigitsCore 10 fuel n ds, c.isDigit = true := by
  induction fuel generalizing n ds with
  | zero => simpa [Nat.toDigitsCore] using hds
  | succ fuel ih =>
    have hcons : ∀ c ∈ Nat.digitChar (n % 10) :: ds, c.isDigit = true := by
      intro c hc
      rcases List.mem_cons.mp hc with hc | hc
      · subst hc
        exact digitChar_isDigit _ (Nat.mod_lt _ (by decide))
      · exact hds c hc
    simp only [Nat.toDigitsCore]
    split
    · exact hcons
    · exact ih _ _ hcons

theorem toDigitsCore_ne_nil (fuel n : Nat) (ds : List Char) (h : 0 < fuel) :
    Nat.toDigitsCore 10 fuel n ds ≠ [] := by
  induction fuel generalizing n ds with
  | zero => omega
  | succ fuel ih =>
    simp only [Nat.toDigitsCore]
    split
    · simp
    · cases fuel with
      | zero =>
        simp [Nat.toDigitsCore]
      | succ f => exact ih _ _ (by omega)

theorem repr_isDigit (n : Nat) : ∀ c ∈ (Nat.repr n).data, c.isDigit = true := by
  simp only [Nat.repr, Nat.toDigits, List.asString]
  exact toDigitsCore_isDigit _ _ [] (by simp)

theorem repr_ne_nil (n : Nat) : (Nat.repr n).data ≠ [] := by
  simp only [Nat.repr, Nat.toDigits, List.asString]
  exact toDigitsCore_ne_nil _ _ [] (by omega)

theorem takeWhile_digits (ds r : List Char) (hds : ∀ c ∈ ds, c.isDigit = true) :
    (ds ++ '.' :: r).takeWhile Char.isDigit = ds
      ∧ (ds ++ '.' :: r).dropWhile Char.isDigit = '.' :: r := by
  induction ds with
  | nil =>
    have : Char.isDigit '.' = false := by decide
    simp [List.takeWhile, List.dropWhile, this]
  | cons c ds ih =>
    have hc : c.isDigit = true := hds c (by simp)
    have h := ih (fun x hx => hds x (by simp [hx]))
    simp [List.takeWhile, List.dropWhile, hc, h.1, h.2]

theorem fixedText_of_parts (prec : Nat) (sign whole frac : List Char)
    (hsign : sign = [] ∨ sign = ['-']) (hne : whole ≠ [])
    (hwhole : ∀ c ∈ whole, c.isDigit = true) (hlen : frac.length = prec)
    (hfrac : ∀ c ∈ frac, c.isDigit = true) :
    fixedText prec (String.mk (sign ++ (whole ++ '.' :: frac))) = true := by
  have htw := takeWhile_digits whole frac hwhole
  have hall : frac.all Char.isDigit = true := by
    simpa [List.all_eq_true] using hfrac
  obtain ⟨w0, ws, rfl⟩ : ∃ w0 ws, whole = w0 :: ws := by
    cases whole with
    | nil => exact absurd rfl hne
    | cons a b => exact ⟨a, b, rfl⟩
  have hw0 : w0.isDigit = true := hwhole w0 (by simp)
  have hw0m : w0 ≠ '-' := by
    intro h
    rw [h] at hw0
    exact absurd hw0 (by decide)
  have hcs : (match (w0 :: ws ++ '.' :: frac : List Char) with
      | '-' :: r => r
      | cs => cs) = w0 :: ws ++ '.' :: frac := by
    simp only [List.cons_append]
    split
    · next r heq =>
      simp only [List.cons.injEq] at heq
      exact absurd heq.1.symm (fun h => hw0m h.symm)
    · rfl
  rcases hsign with h | h
  · subst h
    simp only [fixedText, List.nil_append]
    rw [hcs, htw.1, htw.2]
    simp [hlen, hall]
  · subst h
    simp only [fixedText, List.singleton_append]
    rw [htw.1, htw.2]
    simp [hlen, hall]

theorem fmtFixed_fixedText (prec : Nat) (x : ℚ) : fixedText prec (fmtFixed prec x) = true := by
  have hdata : fmtFixed prec x = String.mk ((fmtSign x).data ++
      ((Nat.repr (roundHalfEven (|x| * 10 ^ prec) / 10 ^ prec)).data ++
        '.' :: digitsFixed prec (roundHalfEven (|x| * 10 ^ prec) % 10 ^ prec))) := by
    apply String.ext
    simp [fmtFixed, String.data_append]
  rw [hdata]
  apply fixedText_of_parts
  · unfold fmtSign
    split
    · right; rfl
    · left; rfl
  · exact repr_ne_nil _
  · exact repr_isDigit _
  · exact digitsFixed_length _ _
  · exact digitsFixed_isDigit _ _


/-! ## The conversion to `uint` -/

theorem floorUint_spec (x : ℚ) (h0 : 0 ≤ x) :
    (floorUint x : ℚ) ≤ x ∧ x < (floorUint x : ℚ) + 1 := by
  have hf : Rat.floor x = ⌊x⌋ := rfl
  have hnn : 0 ≤ ⌊x⌋ := Int.floor_nonneg.mpr h0
  have hcast : ((floorUint x : ℕ) : ℚ) = ((⌊x⌋ : ℤ) : ℚ) := by
    unfold floorUint
    rw [hf]
    have : ((⌊x⌋.toNat : ℕ) : ℤ) = ⌊x⌋ := Int.toNat_of_nonneg hnn
    exact_mod_cast congrArg (fun z : ℤ => (z : ℚ)) this
  rw [hcast]
  exact ⟨Int.floor_le x, Int.lt_floor_add_one x⟩

theorem floorUint_lt (x : ℚ) (h0 : 0 ≤ x) (h1 : x < 2 ^ 64) : floorUint x < 2 ^ 64 := by
  have h := (floorUint_spec x h0).1
  have : (floorUint x : ℚ) < 2 ^ 64 := lt_of_le_of_lt h h1
  exact_mod_cast this

/-! ## Label formatting -/

/-- C1: `updateNodeNamesWithByteSize` changes display names only.  For every
tree and every iteration order the keys of the node map are the same before and
after, every node keeps its Path, Size, Heat and HasHeat, and the edges and the
root key are untouched. -/
theorem updateNodeNamesWithByteSize_changes_only_names (bc : Nat → ℚ × String)
    (root : String) (order : List String) (tree : Tree) :
    mapKeys (updateNodeNamesWithByteSize bc root order tree).Nodes = mapKeys tree.Nodes
      ∧ (∀ key node, mapGet tree.Nodes key = some node →
          ∃ node1, mapGet (updateNodeNamesWithByteSize bc root order tree).Nodes key = some node1
            ∧ node1.Path = node.Path ∧ node1.Size = node.Size
            ∧ node1.Heat = node.Heat ∧ node1.HasHeat = node.HasHeat)
      ∧ (∀ key, mapGet tree.Nodes key = none →
          mapGet (updateNodeNamesWithByteSize bc root order tree).Nodes key = none)
      ∧ (updateNodeNamesWithByteSize bc root order tree).To = tree.To
      ∧ (updateNodeNamesWithByteSize bc root order tree).Root = tree.Root := by
  obtain ⟨hfr, hto, hroot⟩ := update_frames bc root order tree
  have hget : ∀ key,
      (mapGet (updateNodeNamesWithByteSize bc root order tree).Nodes key).map Node.frame
        = (mapGet tree.Nodes key).map Node.frame := by
    intro key
    have h1 := mapGet_map (fun _ (n : Node) => n.frame)
      (updateNodeNamesWithByteSize bc root order tree).Nodes key
    have h2 := mapGet_map (fun _ (n : Node) => n.frame) tree.Nodes key
    rw [← h1, ← h2, hfr]
  refine ⟨?_, ?_, ?_, hto, hroot⟩
  · exact update_keys bc root order tree
  · intro key node hnode
    have h := hget key
    rw [hnode] at h
    cases h1 : mapGet (updateNodeNamesWithByteSize bc root order tree).Nodes key with
    | none => rw [h1] at h; simp at h
    | some node1 =>
      rw [h1] at h
      simp only [Option.map_some', Option.some.injEq, Node.frame, Prod.mk.injEq] at h
      exact ⟨node1, rfl, h.1, h.2.1, h.2.2.1, h.2.2.2⟩
  · intro key hnone
    have h := hget key
    rw [hnone] at h
    cases h1 : mapGet (updateNodeNamesWithByteSize bc root order tree).Nodes key with
    | none => rfl
    | some node1 => rw [h1] at h; simp at h

theorem flagSet_includeUnknown (v v1 : Vars) (name : String) (x : FlagValue)
    (h : flagSet v name x = some v1) : v1.includeUnknown = v.includeUnknown := by
  cases x <;> simp only [flagSet] at h <;> split_ifs at h <;>
    (simp only [Option.some.injEq] at h; subst h; rfl)

theorem flagSet_maxDepth (v v1 : Vars) (name : String) (x : FlagValue)
    (h : flagSet v name x = some v1) :
    v1.maxDepth = flagOr v.maxDepth (lastUint "max-depth" [(name, x)]) := by
  cases x <;> simp only [flagSet] at h <;> split_ifs at h <;>
    (simp only [Option.some.injEq] at h; subst h; simp_all [lastUint, flagOr])

theorem flagSet_includeSymbols (v v1 : Vars) (name : String) (x : FlagValue)
    (h : flagSet v name x = some v1) :
    v1.includeSymbols = flagOr v.includeSymbols (lastBool "symbols" [(name, x)]) := by
  cases x <;> simp only [flagSet] at h <;> split_ifs at h <;>
    (simp only [Option.some.injEq] at h; subst h; simp_all [lastBool, flagOr])

theorem flagSet_includePureSymbols (v v1 : Vars) (name : String) (x : FlagValue)
    (h : flagSet v name x = some v1) :
    v1.includePureSymbols
      = flagOr v.includePureSymbols (lastBool "symbols-pure" [(name, x)]) := by
  cases x <;> simp only [flagSet] at h <;> split_ifs at h <;>
    (simp only [Option.some.injEq] at h; subst h; simp_all [lastBool, flagOr])

theorem lastUint_cons (name k : String) (x : FlagValue) (rest : List (String × FlagValue))
    (a : Nat) :
    flagOr a (lastUint name ((k, x) :: rest))
      = flagOr (flagOr a (lastUint name [(k, x)])) (lastUint name rest) := by
  cases h : lastUint name rest <;> simp [lastUint, flagOr, h]

theorem lastBool_cons (name k : String) (x : FlagValue) (rest : List (String × FlagValue))
    (a : Bool) :
    flagOr a (lastBool name ((k, x) :: rest))
      = flagOr (flagOr a (lastBool name [(k, x)])) (lastBool name rest) := by
  cases h : lastBool name rest <;> simp [lastBool, flagOr, h]

theorem flagApply_vars (args : List (String × FlagValue)) (v0 v : Vars)
    (h : flagApply v0 args = some v) :
    v.includeUnknown = v0.includeUnknown
      ∧ v.maxDepth = flagOr v0.maxDepth (lastUint "max-depth" args)
      ∧ v.includeSymbols = flagOr v0.includeSymbols (lastBool "symbols" args)
      ∧ v.includePureSymbols = flagOr v0.includePureSymbols (lastBool "symbols-pure" args) := by
  induction args generalizing v0 with
  | nil =>
    simp only [flagApply, Option.some.injEq] at h
    subst h
    simp [lastUint, lastBool, flagOr]
  | cons a rest ih =>
    obtain ⟨k, x⟩ := a
    simp only [flagApply] at h
    cases h1 : flagSet v0 k x with
    | none => rw [h1] at h; simp at h
    | some v1 =>
      rw [h1] at h
      obtain ⟨i1, i2, i3, i4⟩ := ih v1 h
      refine ⟨?_, ?_, ?_, ?_⟩
      · rw [i1, flagSet_includeUnknown v0 v1 k x h1]
      · rw [i2, flagSet_maxDepth v0 v1 k x h1]
        exact (lastUint_cons _ k x rest _).symm
      · rw [i3, flagSet_includeSymbols v0 v1 k x h1]
        exact (lastBool_cons _ k x rest _).symm
      · rw [i4, flagSet_includePureSymbols v0 v1 k x h1]
        exact (lastBool_cons _ k x rest _).symm

/-- C10: for every command line that `flag.Parse` accepts, the converter of
`main` has IncludeUnknown = false, because no flag is bound to `includeUnknown`;
MaxDepth, IncludeSymbols and IncludePureSymbols are the values of the flags
`max-depth`, `symbols` and `symbols-pure`, with the defaults 0, false, false. -/
theorem converter_from_flags (args : List (String × FlagValue)) (v : Vars)
    (hparse : flagParse args = some v) :
    (converterOf v).IncludeUnknown = false
      ∧ (converterOf v).MaxDepth = flagOr 0 (lastUint "max-depth" args)
      ∧ (converterOf v).IncludeSymbols = flagOr false (lastBool "symbols" args)
      ∧ (converterOf v).IncludePureSymbols = flagOr false (lastBool "symbols-pure" args)
      ∧ (∀ (S E U : Type) (d : Deps S E U) (range1 range2 : GoMap Node → List String)
          (lines : List String) (symtabFile : S),
          d.ParseSymtab v.verbosity lines = (some symtabFile, none) →
          ∃ run1, main d range1 range2 args lines = some run1
            ∧ Stage.symtabFileToTreemap (converterOf v) ∈ run1.calls) := by
  obtain ⟨i1, i2, i3, i4⟩ := flagApply_vars args registered v hparse
  refine ⟨i1, i2, i3, i4, ?_⟩
  intro S E U d range1 range2 lines symtabFile hp
  refine ⟨run d range1 range2 v lines, ?_, ?_⟩
  · simp [main, hparse]
  · simp only [run, hp]
    split <;> simp [normalizeCalls]

/-- C10, on a command line that sets three flags. -/
theorem converter_from_flags_witness :
    flagParse [("max-depth", .uint 3), ("csv", .bool true), ("symbols", .bool true)]
        = some depthVars
      ∧ (converterOf depthVars).IncludeUnknown = false
      ∧ (converterOf depthVars).MaxDepth = 3 :=
  ⟨by decide!,
   (converter_from_flags [("max-depth", .uint 3), ("csv", .bool true), ("symbols", .bool true)]
      depthVars (by decide!)).1,
   by decide!⟩


/-! ## The run of `main` -/

/-- C3 as stated fails: with `-max-depth 1` the only call that receives the
maximum depth is the converter's, at position 1 of the calls of `main`, before
the call of `ImputeSize` at position 2. -/
theorem depth_limit_after_imputation_counterexample :
    depthLimitAt (run (testDeps sampleInput) mapKeys mapKeys depthOneVars ["10 T a.b"]).calls = 1
      ∧ imputeAt (run (testDeps sampleInput) mapKeys mapKeys depthOneVars ["10 T a.b"]).calls = 2
      ∧ ¬ (imputeAt (run (testDeps sampleInput) mapKeys mapKeys depthOneVars ["10 T a.b"]).calls
            < depthLimitAt
                (run (testDeps sampleInput) mapKeys mapKeys depthOneVars ["10 T a.b"]).calls) := by
  decide!

/-- C3, amended: when the parser succeeds, `main` calls, in this order, the
converter with the symbol filters and the maximum depth of the flags, then
`ImputeSize` with EmptyLeafSize 0, then `updateNodeNamesWithByteSize`, then
`CollapseRoot`; no call after the converter's receives the maximum depth or the
filters, and the tree that is printed or laid out is the composition of the
four in that order. -/
theorem pipeline_order {S E U : Type} (d : Deps S E U)
    (range1 range2 : GoMap Node → List String) (v : Vars) (lines : List String)
    (symtabFile : S) (hparse : d.ParseSymtab v.verbosity lines = (some symtabFile, none)) :
    (run d range1 range2 v lines).calls.take 5
        = [.parseSymtab v.verbosity, .symtabFileToTreemap (converterOf v), .imputeSize 0,
           .updateNodeNamesWithByteSize, .collapseRoot]
      ∧ (converterOf v).MaxDepth = v.maxDepth
      ∧ (converterOf v).IncludeSymbols = v.includeSymbols
      ∧ (converterOf v).IncludePureSymbols = v.includePureSymbols
      ∧ depthLimitAt (run d range1 range2 v lines).calls = 1
      ∧ imputeAt (run d range1 range2 v lines).calls = 2
      ∧ (∀ s ∈ (run d range1 range2 v lines).calls.drop 2,
          s.maxDepth? = none ∧ s.filters? = none)
      ∧ normalizedTree d range1 v symtabFile
          = d.CollapseRoot
              (updateNodeNamesWithByteSize d.ByteCountIEC d.RootNodeName
                (range1 (imputedTree d v symtabFile).Nodes) (imputedTree d v symtabFile))
      ∧ imputedTree d v symtabFile
          = { Nodes := (d.ImputeSize 0 (d.SymtabFileToTreemap (converterOf v) symtabFile)).Nodes
              To := (d.ImputeSize 0 (d.SymtabFileToTreemap (converterOf v) symtabFile)).To
              Root := (d.SymtabFileToTreemap (converterOf v) symtabFile).Root } := by
  refine ⟨?_, rfl, rfl, rfl, ?_, ?_, ?_, rfl, rfl⟩
  · simp only [run, hparse]
    split <;> simp [normalizeCalls]
  · simp only [run, hparse]
    split <;> simp [normalizeCalls, depthLimitAt, List.findIdx_cons, Stage.maxDepth?]
  · simp only [run, hparse]
    split <;> simp [normalizeCalls, imputeAt, List.findIdx_cons]
  · simp only [run, hparse]
    split <;> simp [normalizeCalls, Stage.maxDepth?, Stage.filters?]

/-- C3 amended, on the sample input with `-max-depth 1`. -/
theorem pipeline_order_witness :
    (run (testDeps sampleInput) mapKeys mapKeys depthOneVars ["10 T a.b"]).calls.take 5
      = [.parseSymtab 0, .symtabFileToTreemap ⟨1, false, false, false, 0⟩, .imputeSize 0,
         .updateNodeNamesWithByteSize, .collapseRoot] :=
  (pipeline_order (testDeps sampleInput) mapKeys mapKeys depthOneVars ["10 T a.b"] ()
    (by decide!)).1


/-! ## The CSV output -/

theorem mapGet_of_mem_keys {α : Type} (m : GoMap α) (key : String) (h : key ∈ mapKeys m) :
    ∃ v, mapGet m key = some v := by
  induction m with
  | nil => simp [mapKeys] at h
  | cons e m ih =>
    obtain ⟨k, x⟩ := e
    by_cases hk : k = key
    · exact ⟨x, by simp [mapGet, hk]⟩
    · have hmem : key ∈ mapKeys m := by
        simp only [mapKeys, List.map_cons, List.mem_cons] at h
        rcases h with h | h
        · exact absurd h.symm hk
        · exact h
      obtain ⟨v, hv⟩ := ih hmem
      exact ⟨v, by simp [mapGet, hk, hv]⟩

theorem mem_keys_of_mapGet {α : Type} (m : GoMap α) (key : String) (v : α)
    (h : mapGet m key = some v) : key ∈ mapKeys m := by
  induction m with
  | nil => simp [mapGet] at h
  | cons e m ih =>
    obtain ⟨k, x⟩ := e
    by_cases hk : k = key
    · simp [mapKeys, hk]
    · simp only [mapGet, hk, if_false] at h
      have := ih h
      simp only [mapKeys, List.map_cons, List.mem_cons]
      exact Or.inr this

theorem csvRecords_eq_map (order : List String) (tree : Tree)
    (h : ∀ key ∈ order, key ∈ mapKeys tree.Nodes) :
    csvRecords order tree = order.map (fun key => (key, sizeAt tree key)) := by
  induction order with
  | nil => rfl
  | cons key rest ih =>
    obtain ⟨node, hnode⟩ := mapGet_of_mem_keys tree.Nodes key (h key (by simp))
    have hrest := ih (fun k hk => h k (by simp [hk]))
    simp only [csvRecords] at hrest
    simp [csvRecords, List.filterMap_cons, hnode, sizeAt, hrest]

theorem filter_key_of_nodup (order : List String) (key : String) (hnd : order.Nodup)
    (hmem : key ∈ order) : order.filter (fun k => decide (k = key)) = [key] := by
  induction order with
  | nil => simp at hmem
  | cons a rest ih =>
    have hnd2 := List.nodup_cons.mp hnd
    by_cases ha : a = key
    · subst ha
      have hnone : rest.filter (fun k => decide (k = a)) = [] := by
        rw [List.filter_eq_nil_iff]
        intro k hk
        simp only [decide_eq_true_eq]
        intro hka
        exact hnd2.1 (hka ▸ hk)
      simp [List.filter_cons, hnone]
    · have hmem2 : key ∈ rest := by
        rcases List.mem_cons.mp hmem with h | h
        · exact absurd h.symm ha
        · exact h
      simp [List.filter_cons, ha, ih hnd2.2 hmem2]

theorem csvRecords_node (order : List String) (tree : Tree) :
    ∀ r ∈ csvRecords order tree, ∃ node, mapGet tree.Nodes r.1 = some node ∧ r.2 = node.Size := by
  intro r hr
  simp only [csvRecords, List.mem_filterMap, Option.map_eq_some'] at hr
  obtain ⟨name, _, node, hnode, rfl⟩ := hr
  exact ⟨node, hnode, rfl⟩

/-- C2 as stated fails: for the key `only` and the size 10 the row that
`fmt.Printf("%s,%f\n", ...)` writes is `only,10.000000\n`, not `only,10\n`,
and its first column is the key, not the display name `only 10.00B`. -/
theorem csv_row_only_counterexample :
    csvOutput ["only", "only/Sym"] onlyTree = "only,10.000000\nonly/Sym,10.000000\n"
      ∧ mapGet onlyTree.Nodes "only" = some ⟨"only", "only 10.00B", 10, 0, false⟩
      ∧ csvLine ("only", 10) = "only,10.000000\n"
      ∧ ¬ (csvLine ("only", 10) = "only,10\n") := by
  decide!

/-- C2, amended: every row of the CSV output is `<key>,<size>` and a newline,
where the first column is the key under which the node is stored in
`tree.Nodes` and the second is its Size printed by `%f`, with exactly six
decimals; the row of the key `only` with size 10 is `only,10.000000\n`. -/
theorem csv_row_format (order : List String) (tree : Tree) :
    csvOutput order tree = String.join ((csvRecords order tree).map csvLine)
      ∧ (∀ r ∈ csvRecords order tree,
          (∃ node, mapGet tree.Nodes r.1 = some node ∧ r.2 = node.Size)
            ∧ csvLine r = r.1 ++ "," ++ fmtFixed 6 r.2 ++ "\n"
            ∧ fixedText 6 (fmtFixed 6 r.2) = true)
      ∧ csvLine ("only", 10) = "only,10.000000\n" := by
  refine ⟨rfl, ?_, by decide!⟩
  intro r hr
  exact ⟨csvRecords_node order tree r hr, rfl, fmtFixed_fixedText _ _⟩

/-- C7: in CSV mode `main` writes one row per node of the normalized tree: the
output is the rows in the order of the runtime, the number of rows is the
number of nodes, every key is the first column of exactly one row, and the
size of that row is the Size of the node under that key. -/
theorem csv_one_row_per_node {S E U : Type} (d : Deps S E U)
    (range1 range2 : GoMap Node → List String) (v : Vars) (lines : List String)
    (symtabFile : S) (hparse : d.ParseSymtab v.verbosity lines = (some symtabFile, none))
    (hcsv : v.outputCSV = true)
    (hmap : (mapKeys (normalizedTree d range1 v symtabFile).Nodes).Nodup)
    (hrange : ValidRange range2 (normalizedTree d range1 v symtabFile).Nodes) :
    (run d range1 range2 v lines).stdout
        = String.join ((runRecords d range1 range2 v symtabFile).map csvLine)
      ∧ (runRecords d range1 range2 v symtabFile).length
          = (normalizedTree d range1 v symtabFile).Nodes.length
      ∧ (∀ key node, mapGet (normalizedTree d range1 v symtabFile).Nodes key = some node →
          (runRecords d range1 range2 v symtabFile).filter (fun r => decide (r.1 = key))
            = [(key, node.Size)])
      ∧ (∀ r ∈ runRecords d range1 range2 v symtabFile,
          ∃ node, mapGet (normalizedTree d range1 v symtabFile).Nodes r.1 = some node) := by
  have hall : ∀ key ∈ range2 (normalizedTree d range1 v symtabFile).Nodes,
      key ∈ mapKeys (normalizedTree d range1 v symtabFile).Nodes :=
    fun key hk => hrange.mem_iff.mp hk
  have hrec := csvRecords_eq_map _ (normalizedTree d range1 v symtabFile) hall
  refine ⟨?_, ?_, ?_, ?_⟩
  · simp [run, hparse, hcsv, csvOutput, runRecords]
  · simp only [runRecords]
    rw [hrec, List.length_map, hrange.length_eq]
    simp [mapKeys]
  · intro key node hnode
    have hmem : key ∈ range2 (normalizedTree d range1 v symtabFile).Nodes :=
      hrange.mem_iff.mpr (mem_keys_of_mapGet _ key node hnode)
    have hnd : (range2 (normalizedTree d range1 v symtabFile).Nodes).Nodup :=
      hrange.nodup_iff.mpr hmap
    simp only [runRecords]
    rw [hrec, List.filter_map]
    have hf : ((fun r : String × ℚ => decide (r.1 = key)) ∘
        (fun k => (k, sizeAt (normalizedTree d range1 v symtabFile) k)))
        = (fun k => decide (k = key)) := rfl
    rw [hf, filter_key_of_nodup _ key hnd hmem]
    simp [sizeAt, hnode]
  · intro r hr
    obtain ⟨node, hnode, _⟩ := csvRecords_node _ _ r hr
    exact ⟨node, hnode⟩

/-- C7, on the sample input: three nodes, three rows, one of them for `/a`. -/
theorem csv_one_row_per_node_witness :
    (run (testDeps sampleInput) mapKeys reverseRange csvVars ["10 T a.b"]).stdout
        = "/b,1536.000000\n/a,2048.000000\n,3584.000000\n"
      ∧ (runRecords (testDeps sampleInput) mapKeys reverseRange csvVars ()).length = 3 := by
  have h := csv_one_row_per_node (testDeps sampleInput) mapKeys reverseRange csvVars
    ["10 T a.b"] () (by decide!) (by decide!) (by decide!)
    (by unfold ValidRange reverseRange; exact List.reverse_perm _)
  exact ⟨h.1.trans (by decide!), h.2.1.trans (by decide!)⟩


/-! ## Two runs on the same input -/

theorem map_ext {α : Type} (m1 m2 : GoMap α) (hkeys : mapKeys m1 = mapKeys m2)
    (hnd : (mapKeys m1).Nodup) (hget : ∀ key, mapGet m1 key = mapGet m2 key) : m1 = m2 := by
  induction m1 generalizing m2 with
  | nil =>
    cases m2 with
    | nil => rfl
    | cons e m2 => simp [mapKeys] at hkeys
  | cons e1 r1 ih =>
    cases m2 with
    | nil => simp [mapKeys] at hkeys
    | cons e2 r2 =>
      obtain ⟨k1, x1⟩ := e1
      obtain ⟨k2, x2⟩ := e2
      simp only [mapKeys, List.map_cons, List.cons.injEq] at hkeys
      obtain ⟨hk, hrest⟩ := hkeys
      subst hk
      have hnd2 := List.nodup_cons.mp hnd
      have hx : x1 = x2 := by
        have := hget k1
        simpa [mapGet] using this
      subst hx
      have hr : r1 = r2 := by
        apply ih r2 hrest hnd2.2
        intro key
        by_cases hkey : k1 = key
        · subst hkey
          have h1 : mapGet r1 k1 = none := by
            cases h : mapGet r1 k1 with
            | none => rfl
            | some v => exact absurd (mem_keys_of_mapGet r1 k1 v h) hnd2.1
          have h2 : mapGet r2 k1 = none := by
            cases h : mapGet r2 k1 with
            | none => rfl
            | some v =>
              have hm := mem_keys_of_mapGet r2 k1 v h
              have hr1 : mapKeys r1 = mapKeys r2 := hrest
              rw [← hr1] at hm
              exact absurd hm hnd2.1
          rw [h1, h2]
        · have := hget key
          simpa [mapGet, hkey] using this
      rw [hr]

theorem tree_ext (a b : Tree) (h1 : a.Nodes = b.Nodes) (h2 : a.To = b.To)
    (h3 : a.Root = b.Root) : a = b := by
  cases a
  cases b
  simp_all

theorem update_order_irrelevant (bc : Nat → ℚ × String) (root : String)
    (o1 o2 : List String) (t : Tree) (hmap : (mapKeys t.Nodes).Nodup)
    (h1 : o1.Perm (mapKeys t.Nodes)) (h2 : o2.Perm (mapKeys t.Nodes)) :
    updateNodeNamesWithByteSize bc root o1 t = updateNodeNamesWithByteSize bc root o2 t := by
  have f1 := update_frames bc root o1 t
  have f2 := update_frames bc root o2 t
  apply tree_ext
  · apply map_ext
    · rw [update_keys, update_keys]
    · rw [update_keys]; exact hmap
    · intro key
      by_cases hk : key ∈ mapKeys t.Nodes
      · rw [update_get_mem bc root o1 t key (h1.nodup_iff.mpr hmap) (h1.mem_iff.mpr hk),
          update_get_mem bc root o2 t key (h2.nodup_iff.mpr hmap) (h2.mem_iff.mpr hk)]
      · rw [update_get_not_mem bc root o1 t key (fun h => hk (h1.mem_iff.mp h)),
          update_get_not_mem bc root o2 t key (fun h => hk (h2.mem_iff.mp h))]
  · rw [f1.2.1, f2.2.1]
  · rw [f1.2.2, f2.2.2]

/-- C5 as stated fails: two runs on the same input and flags, in CSV mode, whose
runtimes yield the keys of the node map in two different orders, both valid,
write different bytes. -/
theorem csv_order_counterexample :
    ValidRange mapKeys (normalizedTree (testDeps sampleInput) mapKeys csvVars ()).Nodes
      ∧ ValidRange reverseRange (normalizedTree (testDeps sampleInput) mapKeys csvVars ()).Nodes
      ∧ (run (testDeps sampleInput) mapKeys mapKeys csvVars ["10 T a.b"]).stdout
          = ",3584.000000\n/a,2048.000000\n/b,1536.000000\n"
      ∧ (run (testDeps sampleInput) mapKeys reverseRange csvVars ["10 T a.b"]).stdout
          = "/b,1536.000000\n/a,2048.000000\n,3584.000000\n"
      ∧ ¬ ((run (testDeps sampleInput) mapKeys mapKeys csvVars ["10 T a.b"]).stdout
            = (run (testDeps sampleInput) mapKeys reverseRange csvVars ["10 T a.b"]).stdout) :=
  ⟨List.Perm.refl _, List.reverse_perm _, by decide!, by decide!, by decide!⟩

/-- C5, amended: the relabelled and normalized tree of a run does not depend on
the order in which the runtime yields the keys, and in CSV mode two runs write
the same rows, one per key, in the map iteration order of each run: the rows of
the two runs are permutations of each other. -/
theorem csv_runs_agree_up_to_order {S E U : Type} (d : Deps S E U)
    (r1 r1b r2 r2b : GoMap Node → List String) (v : Vars) (symtabFile : S)
    (hmap : (mapKeys (imputedTree d v symtabFile).Nodes).Nodup)
    (h1 : ValidRange r1 (imputedTree d v symtabFile).Nodes)
    (h1b : ValidRange r1b (imputedTree d v symtabFile).Nodes)
    (h2 : ValidRange r2 (normalizedTree d r1 v symtabFile).Nodes)
    (h2b : ValidRange r2b (normalizedTree d r1 v symtabFile).Nodes) :
    normalizedTree d r1 v symtabFile = normalizedTree d r1b v symtabFile
      ∧ (runRecords d r1 r2 v symtabFile).Perm (runRecords d r1b r2b v symtabFile)
      ∧ ((runRecords d r1 r2 v symtabFile).map csvLine).Perm
          ((runRecords d r1b r2b v symtabFile).map csvLine) := by
  have htree : normalizedTree d r1 v symtabFile = normalizedTree d r1b v symtabFile := by
    unfold normalizedTree labelledTree
    simp only []
    rw [update_order_irrelevant d.ByteCountIEC d.RootNodeName _ _ _ hmap h1 h1b]
  have hperm : (runRecords d r1 r2 v symtabFile).Perm (runRecords d r1b r2b v symtabFile) := by
    unfold runRecords csvRecords
    rw [← htree]
    exact List.Perm.filterMap _ (h2.trans h2b.symm)
  exact ⟨htree, hperm, hperm.map _⟩

/-- C5 amended, on the sample input with the stored and the reverse order. -/
theorem csv_runs_agree_up_to_order_witness :
    (runRecords (testDeps sampleInput) mapKeys mapKeys csvVars ()).Perm
      (runRecords (testDeps sampleInput) reverseRange reverseRange csvVars ()) :=
  (csv_runs_agree_up_to_order (testDeps sampleInput) mapKeys reverseRange mapKeys reverseRange
    csvVars () (by decide!) (List.Perm.refl _) (List.reverse_perm _) (List.Perm.refl _)
    (List.reverse_perm _)).2.1


/-! ## Size imputation, as the spec describes it -/

theorem mapSet_same {α : Type} (m : GoMap α) (k : String) (v : α)
    (h : mapGet m k = some v) : mapSet m k v = m := by
  induction m with
  | nil => simp [mapGet] at h
  | cons e m ih =>
    obtain ⟨k0, x⟩ := e
    by_cases h0 : k0 = k
    · simp only [mapGet, h0, if_true, Option.some.injEq] at h
      simp [mapSet, h0, h]
    · simp only [mapGet, h0, if_false] at h
      simp [mapSet, h0, ih h]

theorem resolve_set (e : ℚ) (t : Tree) (x : String) (node : Node)
    (h : mapGet t.Nodes x = some node) (hs : node.Size = 0) :
    resolve e t x
      = { t with Nodes := mapSet t.Nodes x { node with Size := target e t x } } := by
  simp [resolve, h, hs]

theorem resolve_skip (e : ℚ) (t : Tree) (x : String)
    (h : ∀ node, mapGet t.Nodes x = some node → node.Size ≠ 0) : resolve e t x = t := by
  unfold resolve
  cases hg : mapGet t.Nodes x with
  | none => rfl
  | some node => simp [h node hg]

theorem resolve_To (e : ℚ) (t : Tree) (x : String) :
    (resolve e t x).To = t.To ∧ (resolve e t x).Root = t.Root := by
  cases hg : mapGet t.Nodes x with
  | none => rw [resolve_skip e t x (by simp [hg])]; exact ⟨rfl, rfl⟩
  | some node =>
    by_cases hs : node.Size = 0
    · rw [resolve_set e t x node hg hs]; exact ⟨rfl, rfl⟩
    · rw [resolve_skip e t x (by intro n hn; rw [hg] at hn; cases hn; exact hs)]
      exact ⟨rfl, rfl⟩

theorem resolve_get_ne (e : ℚ) (t : Tree) (x y : String) (hxy : x ≠ y) :
    mapGet (resolve e t x).Nodes y = mapGet t.Nodes y := by
  cases hg : mapGet t.Nodes x with
  | none => rw [resolve_skip e t x (by simp [hg])]
  | some node =>
    by_cases hs : node.Size = 0
    · rw [resolve_set e t x node hg hs]
      simp [mapGet_mapSet, hxy]
    · rw [resolve_skip e t x (by intro n hn; rw [hg] at hn; cases hn; exact hs)]

theorem resolve_present (e : ℚ) (t : Tree) (x y : String) :
    present (resolve e t x) y = present t y := by
  by_cases hxy : x = y
  · subst hxy
    cases hg : mapGet t.Nodes x with
    | none => rw [resolve_skip e t x (by simp [hg])]
    | some node =>
      by_cases hs : node.Size = 0
      · rw [resolve_set e t x node hg hs]
        simp [present, mapGet_mapSet, hg]
      · rw [resolve_skip e t x (by intro n hn; rw [hg] at hn; cases hn; exact hs)]
  · simp [present, resolve_get_ne e t x y hxy]

theorem resolve_sizeAt_ne (e : ℚ) (t : Tree) (x y : String) (hxy : x ≠ y) :
    sizeAt (resolve e t x) y = sizeAt t y := by
  simp [sizeAt, resolve_get_ne e t x y hxy]

theorem resolve_sizeAt_nonzero (e : ℚ) (t : Tree) (x y : String) (hy : sizeAt t y ≠ 0) :
    sizeAt (resolve e t x) y = sizeAt t y := by
  by_cases hxy : x = y
  · subst hxy
    rw [resolve_skip e t x]
    intro node hn
    simpa [sizeAt, hn] using hy
  · exact resolve_sizeAt_ne e t x y hxy

theorem resolve_sizeAt_self (e : ℚ) (t : Tree) (x : String) (hp : present t x = true)
    (hz : sizeAt t x = 0) : sizeAt (resolve e t x) x = target e t x := by
  cases h : mapGet t.Nodes x with
  | none => simp [present, h] at hp
  | some node =>
    have hs : node.Size = 0 := by simpa [sizeAt, h] using hz
    rw [resolve_set e t x node h hs]
    simp [sizeAt, mapGet_mapSet]

theorem resolve_noop (e : ℚ) (t : Tree) (x : String)
    (h : present t x = true → sizeAt t x = 0 → target e t x = 0) : resolve e t x = t := by
  cases hg : mapGet t.Nodes x with
  | none => exact resolve_skip e t x (by simp [hg])
  | some node =>
    by_cases hs : node.Size = 0
    · have ht : target e t x = 0 := h (by simp [present, hg]) (by simp [sizeAt, hg, hs])
      have hn : ({ node with Size := target e t x } : Node) = node := by
        cases node
        simp_all
      rw [resolve_set e t x node hg hs, hn, mapSet_same _ _ _ hg]
    · exact resolve_skip e t x (by intro n hn; rw [hg] at hn; cases hn; exact hs)

theorem target_congr (e : ℚ) (t1 t2 : Tree) (z : String) (hTo : t2.To = t1.To)
    (hs : ∀ c ∈ children t1 z, sizeAt t2 c = sizeAt t1 c) : target e t2 z = target e t1 z := by
  have hc : children t2 z = children t1 z := by simp [children, hTo]
  unfold target
  rw [hc]
  have hm : (children t1 z).map (sizeAt t2) = (children t1 z).map (sizeAt t1) :=
    List.map_congr_left hs
  rw [hm]

theorem reach_trans (edges : GoMap (List String)) (a b c : String)
    (h1 : Reach edges a b) (h2 : Reach edges b c) : Reach edges a c := by
  induction h2 with
  | refl => exact h1
  | step _ hk ih => exact Reach.step ih hk

theorem reach_child (edges : GoMap (List String)) (a c : String) (h : c ∈ kids edges a) :
    Reach edges a c := Reach.step Reach.refl h

theorem reach_cases (edges : GoMap (List String)) (a z : String) (h : Reach edges a z) :
    z = a ∨ ∃ c ∈ kids edges a, Reach edges c z := by
  induction h with
  | refl => exact Or.inl rfl
  | step hab hk ih =>
    rcases ih with ih | ⟨c, hc, hcb⟩
    · subst ih
      exact Or.inr ⟨_, hk, Reach.refl⟩
    · exact Or.inr ⟨c, hc, Reach.step hcb hk⟩

theorem reach_rank (edges : GoMap (List String)) (rank : String → Nat)
    (hr : ∀ p c, c ∈ kids edges p → rank c < rank p) (a z : String) (h : Reach edges a z) :
    rank z ≤ rank a := by
  induction h with
  | refl => exact Nat.le_refl _
  | step _ hk ih => exact Nat.le_of_lt (Nat.lt_of_lt_of_le (hr _ _ hk) ih)

theorem reach_mono (e1 e2 : GoMap (List String))
    (hsub : ∀ p c, c ∈ kids e1 p → c ∈ kids e2 p) (a z : String) (h : Reach e1 a z) :
    Reach e2 a z := by
  induction h with
  | refl => exact Reach.refl
  | step _ hk ih => exact Reach.step ih (hsub _ _ hk)

/-- The assignment at `x` leaves a resolved subtree as it is. -/
theorem resolve_stable (e : ℚ) (t : Tree) (x y : String) (hst : Stable e t y) :
    Stable e (resolve e t x) y
      ∧ ∀ z, Reach t.To y z → sizeAt (resolve e t x) z = sizeAt t z := by
  by_cases hx : Reach t.To y x
  · have hno : resolve e t x = t := resolve_noop e t x (hst x hx)
    rw [hno]
    exact ⟨hst, fun _ _ => rfl⟩
  · have hsz : ∀ z, Reach t.To y z → sizeAt (resolve e t x) z = sizeAt t z := by
      intro z hz
      apply resolve_sizeAt_ne
      intro hxz
      exact hx (hxz ▸ hz)
    refine ⟨?_, hsz⟩
    intro z hz hp hzero
    rw [(resolve_To e t x).1] at hz
    rw [resolve_present] at hp
    rw [hsz z hz] at hzero
    rw [target_congr e t (resolve e t x) z (resolve_To e t x).1
      (fun c hc => hsz c (Reach.step hz hc))]
    exact hst z hz hp hzero


/-! ## The traversal `imputeNode` -/

theorem foldl_inv {α β : Type} (f : α → β → α) (P : α → Prop) (l : List β) (a : α)
    (h0 : P a) (hstep : ∀ acc c, c ∈ l → P acc → P (f acc c)) : P (l.foldl f a) := by
  induction l generalizing a with
  | nil => exact h0
  | cons c rest ih =>
    simp only [List.foldl_cons]
    exact ih (f a c) (hstep a c (by simp) h0)
      (fun acc c1 hc1 hacc => hstep acc c1 (by simp [hc1]) hacc)

theorem foldl_each {α β : Type} (f : α → β → α) (I : α → Prop) (Q : β → α → Prop)
    (l : List β) (a : α) (hI0 : I a) (hI : ∀ acc c, I acc → I (f acc c))
    (hdo : ∀ acc c, c ∈ l → I acc → Q c (f acc c))
    (hkeep : ∀ acc c y, I acc → Q y acc → Q y (f acc c)) :
    ∀ c ∈ l, Q c (l.foldl f a) := by
  induction l generalizing a with
  | nil => intro c hc; simp at hc
  | cons c0 rest ih =>
    intro c hc
    simp only [List.foldl_cons]
    by_cases hrest : c ∈ rest
    · exact ih (f a c0) (hI a c0 hI0)
        (fun acc c1 hc1 hacc => hdo acc c1 (by simp [hc1]) hacc) c hrest
    · have hcc : c = c0 := by
        rcases List.mem_cons.mp hc with h | h
        · exact h
        · exact absurd h hrest
      subst hcc
      have h1 : I (f a c) ∧ Q c (f a c) := ⟨hI a c hI0, hdo a c (by simp) hI0⟩
      exact (foldl_inv f (fun acc => I acc ∧ Q c acc) rest (f a c) h1
        (fun acc c1 _ hacc => ⟨hI acc c1 hacc.1, hkeep acc c1 c hacc.1 hacc.2⟩)).2

theorem frame_refl (t : Tree) : Frame t t := ⟨rfl, rfl, fun _ => rfl, fun _ _ => rfl⟩

theorem frame_trans (t a b : Tree) (h1 : Frame t a) (h2 : Frame a b) : Frame t b := by
  obtain ⟨a1, a2, a3, a4⟩ := h1
  obtain ⟨b1, b2, b3, b4⟩ := h2
  refine ⟨b1.trans a1, b2.trans a2, fun y => (b3 y).trans (a3 y), ?_⟩
  intro y hy
  have hay : sizeAt a y = sizeAt t y := a4 y hy
  rw [b4 y (by rw [hay]; exact hy), hay]

theorem frame_resolve (e : ℚ) (t : Tree) (x : String) : Frame t (resolve e t x) :=
  ⟨(resolve_To e t x).1, (resolve_To e t x).2, resolve_present e t x,
    fun y hy => resolve_sizeAt_nonzero e t x y hy⟩

theorem imputeNode_succ (e : ℚ) (fuel : Nat) (t : Tree) (key : String) :
    imputeNode e (fuel + 1) t key
      = resolve e ((children t key).foldl (fun acc c => imputeNode e fuel acc c) t) key := rfl

theorem frame_imputeNode (e : ℚ) (fuel : Nat) (t : Tree) (x : String) :
    Frame t (imputeNode e fuel t x) := by
  induction fuel generalizing t x with
  | zero => exact frame_refl t
  | succ fuel ih =>
    rw [imputeNode_succ]
    apply frame_trans t _ _ _ (frame_resolve e _ x)
    exact foldl_inv _ (fun acc => Frame t acc) _ t (frame_refl t)
      (fun acc c _ hacc => frame_trans t acc _ hacc (ih acc c))

/-- A traversal from anywhere leaves a resolved subtree as it is. -/
theorem imputeNode_stable (e : ℚ) (fuel : Nat) (t : Tree) (x y : String)
    (hst : Stable e t y) :
    Stable e (imputeNode e fuel t x) y
      ∧ ∀ z, Reach t.To y z → sizeAt (imputeNode e fuel t x) z = sizeAt t z := by
  induction fuel generalizing t x with
  | zero => exact ⟨hst, fun _ _ => rfl⟩
  | succ fuel ih =>
    rw [imputeNode_succ]
    have hfold := foldl_inv (fun acc c => imputeNode e fuel acc c)
      (fun acc => acc.To = t.To ∧ Stable e acc y
        ∧ ∀ z, Reach t.To y z → sizeAt acc z = sizeAt t z)
      (children t x) t ⟨rfl, hst, fun _ _ => rfl⟩
      (by
        intro acc c _ hacc
        obtain ⟨hTo, hs, hsz⟩ := hacc
        have h := ih acc c hs
        refine ⟨(frame_imputeNode e fuel acc c).1.trans hTo, h.1, ?_⟩
        intro z hz
        rw [h.2 z (by rw [hTo]; exact hz), hsz z hz])
    obtain ⟨hTo, hs, hsz⟩ := hfold
    have h := resolve_stable e _ x y hs
    refine ⟨h.1, ?_⟩
    intro z hz
    rw [h.2 z (by rw [hTo]; exact hz), hsz z hz]

/-- Once the children of `x` are resolved, the assignment at `x` resolves `x`. -/
theorem resolve_resolves (e : ℚ) (t : Tree) (x : String)
    (hself : ∀ c ∈ children t x, c ≠ x)
    (hch : ∀ c ∈ children t x, Stable e t c) : Stable e (resolve e t x) x := by
  intro z hz hp hzero
  rw [(resolve_To e t x).1] at hz
  rcases reach_cases t.To x z hz with hzx | ⟨c, hc, hcz⟩
  · subst hzx
    rw [resolve_present] at hp
    have htar : target e (resolve e t z) z = target e t z :=
      target_congr e t (resolve e t z) z (resolve_To e t z).1
        (fun c hc => resolve_sizeAt_ne e t z c (fun h => hself c hc h.symm))
    rw [htar]
    by_cases h0 : sizeAt t z = 0
    · rw [resolve_sizeAt_self e t z hp h0] at hzero
      exact hzero
    · rw [resolve_sizeAt_nonzero e t z z h0] at hzero
      exact absurd hzero h0
  · have h := (resolve_stable e t x c (hch c hc)).1
    exact h z (by rw [(resolve_To e t x).1]; exact hcz) hp hzero

theorem fold_children_stable (e : ℚ) (rank : String → Nat) (fuel : Nat)
    (hC : ∀ (t : Tree) (c : String), (∀ p k, k ∈ kids t.To p → rank k < rank p) →
      rank c < fuel → Stable e (imputeNode e fuel t c) c)
    (t : Tree) (l : List String) (hr : ∀ p k, k ∈ kids t.To p → rank k < rank p)
    (hl : ∀ c ∈ l, rank c < fuel) :
    ∀ c ∈ l, Stable e (l.foldl (fun acc c => imputeNode e fuel acc c) t) c := by
  apply foldl_each (fun acc c => imputeNode e fuel acc c) (fun acc => acc.To = t.To)
    (fun c acc => Stable e acc c) l t rfl
  · intro acc c hacc
    exact (frame_imputeNode e fuel acc c).1.trans hacc
  · intro acc c hc hacc
    exact hC acc c (by rw [hacc]; exact hr) (hl c hc)
  · intro acc c y _ hy
    exact (imputeNode_stable e fuel acc c y hy).1

/-- With fuel above its rank, the traversal from `x` resolves the subtree of `x`. -/
theorem imputeNode_resolves (e : ℚ) (rank : String → Nat) (fuel : Nat) (t : Tree) (x : String)
    (hr : ∀ p k, k ∈ kids t.To p → rank k < rank p) (hx : rank x < fuel) :
    Stable e (imputeNode e fuel t x) x := by
  induction fuel generalizing t x with
  | zero => omega
  | succ fuel ih =>
    rw [imputeNode_succ]
    have hTo : ((children t x).foldl (fun acc c => imputeNode e fuel acc c) t).To = t.To :=
      foldl_inv _ (fun acc => acc.To = t.To) _ t rfl
        (fun acc c _ hacc => (frame_imputeNode e fuel acc c).1.trans hacc)
    have hkids : children ((children t x).foldl (fun acc c => imputeNode e fuel acc c) t) x
        = children t x := congrArg (fun edges => kids edges x) hTo
    have hlt : ∀ c ∈ children t x, rank c < fuel := by
      intro c hc
      have := hr x c hc
      omega
    have hch := fold_children_stable e rank fuel (fun t c h1 h2 => ih t c h1 h2) t
      (children t x) hr hlt
    apply resolve_resolves
    · intro c hc hcx
      rw [hkids] at hc
      have := hr x c hc
      rw [hcx] at this
      exact Nat.lt_irrefl _ this
    · intro c hc
      rw [hkids] at hc
      exact hch c hc

/-- The assignment at `w`, once the children of `w` are resolved, keeps the
record of the assignments. -/
theorem resolve_imputed (e : ℚ) (t0 t : Tree) (w : String) (himp : Imputed e t0 t)
    (hch : ∀ c ∈ children t w, Stable e t c) : Imputed e t0 (resolve e t w) := by
  intro x hp h0 hne
  rw [resolve_present] at hp
  have hkids : children (resolve e t w) x = children t x := by
    simp [children, (resolve_To e t w).1]
  have hfin : sizeAt (resolve e t w) x = target e t x ∧ ∀ c ∈ children t x, Stable e t c := by
    by_cases h1 : sizeAt t x = 0
    · have hxw : w = x := by
        by_contra hxw
        rw [resolve_sizeAt_ne e t w x hxw] at hne
        exact hne h1
      subst hxw
      exact ⟨resolve_sizeAt_self e t w hp h1, hch⟩
    · rw [resolve_sizeAt_nonzero e t w x h1]
      exact himp x hp h0 h1
  obtain ⟨hsize, hstab⟩ := hfin
  refine ⟨?_, ?_⟩
  · rw [hsize]
    exact (target_congr e t (resolve e t w) x (resolve_To e t w).1
      (fun c hc => (resolve_stable e t w c (hstab c hc)).2 c Reach.refl)).symm
  · intro c hc
    rw [hkids] at hc
    exact (resolve_stable e t w c (hstab c hc)).1

theorem imputeNode_imputed (e : ℚ) (rank : String → Nat) (fuel : Nat) (t0 t : Tree)
    (w : String) (hr : ∀ p k, k ∈ kids t.To p → rank k < rank p) (hw : rank w < fuel)
    (himp : Imputed e t0 t) : Imputed e t0 (imputeNode e fuel t w) := by
  induction fuel generalizing t w with
  | zero => omega
  | succ fuel ih =>
    rw [imputeNode_succ]
    have hlt : ∀ c ∈ children t w, rank c < fuel := by
      intro c hc
      have := hr w c hc
      omega
    have hfold := foldl_inv (fun acc c => imputeNode e fuel acc c)
      (fun acc => acc.To = t.To ∧ Imputed e t0 acc) (children t w) t ⟨rfl, himp⟩
      (by
        intro acc c hc hacc
        exact ⟨(frame_imputeNode e fuel acc c).1.trans hacc.1,
          ih acc c (by rw [hacc.1]; exact hr) (hlt c hc) hacc.2⟩)
    have hkids : children ((children t w).foldl (fun acc c => imputeNode e fuel acc c) t) w
        = children t w := congrArg (fun edges => kids edges w) hfold.1
    have hch := fold_children_stable e rank fuel
      (fun t c h1 h2 => imputeNode_resolves e rank fuel t c h1 h2) t (children t w) hr hlt
    apply resolve_imputed e t0 _ w hfold.2
    intro c hc
    rw [hkids] at hc
    exact hch c hc

/-- The imputation of the spec on a tree whose edges descend: below the root,
an unset node with children gets the sum of the sizes of its children, and a
node with a size keeps it. -/
theorem ImputeSize_sum (e : ℚ) (rank : String → Nat) (t0 : Tree) (hr : Ranked t0 rank)
    (x : String) (hreach : Reach t0.To t0.Root x) (hp : present t0 x = true) :
    (sizeAt t0 x = 0 → children t0 x ≠ [] →
        sizeAt (ImputeSize e t0) x = ((children t0 x).map (sizeAt (ImputeSize e t0))).sum)
      ∧ (sizeAt t0 x ≠ 0 → sizeAt (ImputeSize e t0) x = sizeAt t0 x) := by
  have hfr : Frame t0 (ImputeSize e t0) := frame_imputeNode e _ t0 t0.Root
  refine ⟨?_, fun h => hfr.2.2.2 x h⟩
  intro h0 hne
  have hfuel : rank t0.Root < t0.To.length + 1 := Nat.lt_succ_of_le hr.2
  have hst : Stable e (ImputeSize e t0) t0.Root :=
    imputeNode_resolves e rank _ t0 t0.Root hr.1 hfuel
  have himp : Imputed e t0 (ImputeSize e t0) :=
    imputeNode_imputed e rank _ t0 t0 t0.Root hr.1 hfuel
      (fun y _ hy0 hyne => absurd hy0 hyne)
  have hpres : present (ImputeSize e t0) x = true := by rw [hfr.2.2.1 x]; exact hp
  have hkids : children (ImputeSize e t0) x = children t0 x := by simp [children, hfr.1]
  have htar : target e (ImputeSize e t0) x
      = ((children t0 x).map (sizeAt (ImputeSize e t0))).sum := by
    simp [target, hkids, hne]
  by_cases hz : sizeAt (ImputeSize e t0) x = 0
  · have := hst x (by rw [hfr.1]; exact hreach) hpres hz
    rw [hz, ← htar, this]
  · rw [← htar]
    exact (himp x hpres h0 hz).1


/-! ## Root collapsing, as the spec describes it -/

theorem mapGet_mapErase {α : Type} (m : GoMap α) (r x : String) :
    mapGet (mapErase m r) x = if r = x then none else mapGet m x := by
  induction m with
  | nil => simp [mapErase, mapGet]
  | cons e m ih =>
    obtain ⟨k, v⟩ := e
    by_cases hk : k = r
    · subst hk
      by_cases hx : k = x
      · subst hx
        simpa [mapErase] using ih
      · simp [mapErase, mapGet, hx, ih]
    · by_cases hx : k = x
      · subst hx
        have : ¬ r = k := fun h => hk h.symm
        simp [mapErase, mapGet, hk, this]
      · simp [mapErase, mapGet, hk, hx, ih]

theorem mapErase_length_le {α : Type} (m : GoMap α) (r : String) :
    (mapErase m r).length ≤ m.length := by
  induction m with
  | nil => simp [mapErase]
  | cons e m ih =>
    obtain ⟨k, x⟩ := e
    by_cases hk : k = r
    · simp only [mapErase, hk, if_true, List.length_cons]
      omega
    · simp only [mapErase, hk, if_false, List.length_cons]
      omega

theorem mapErase_length {α : Type} (m : GoMap α) (r : String) (v : α)
    (h : mapGet m r = some v) : (mapErase m r).length < m.length := by
  induction m with
  | nil => simp [mapGet] at h
  | cons e m ih =>
    obtain ⟨k, x⟩ := e
    by_cases hk : k = r
    · have hle := mapErase_length_le m r
      simp only [mapErase, hk, if_true, List.length_cons]
      omega
    · simp only [mapGet, hk, if_false] at h
      have := ih h
      simp only [mapErase, hk, if_false, List.length_cons]
      omega

theorem kids_mapErase (edges : GoMap (List String)) (r p k : String)
    (h : k ∈ kids (mapErase edges r) p) : k ∈ kids edges p ∧ r ≠ p := by
  unfold kids at h
  rw [mapGet_mapErase] at h
  by_cases hrp : r = p
  · simp [hrp] at h
  · simp only [hrp, if_false] at h
    exact ⟨h, hrp⟩

theorem collapseRoot_one (fuel : Nat) (t : Tree) (child : String)
    (h : children t t.Root = [child]) :
    collapseRoot (fuel + 1) t
      = collapseRoot fuel
          { Nodes := mapErase t.Nodes t.Root, To := mapErase t.To t.Root, Root := child } := by
  simp [collapseRoot, h]

theorem collapseRoot_keep (fuel : Nat) (t : Tree) (h : ∀ c, children t t.Root ≠ [c]) :
    collapseRoot (fuel + 1) t = t := by
  unfold collapseRoot
  split
  · next child hc => exact absurd hc (h child)
  · rfl

theorem collapseRoot_spec (rank : String → Nat) (fuel : Nat) (t : Tree)
    (hr : ∀ p k, k ∈ kids t.To p → rank k < rank p) :
    Reach t.To t.Root (collapseRoot fuel t).Root
      ∧ (∀ p k, k ∈ kids (collapseRoot fuel t).To p → k ∈ kids t.To p)
      ∧ (∀ x, rank x ≤ rank (collapseRoot fuel t).Root →
          mapGet (collapseRoot fuel t).Nodes x = mapGet t.Nodes x
            ∧ mapGet (collapseRoot fuel t).To x = mapGet t.To x) := by
  induction fuel generalizing t with
  | zero => exact ⟨Reach.refl, fun _ _ h => h, fun _ _ => ⟨rfl, rfl⟩⟩
  | succ fuel ih =>
    by_cases hone : ∃ child, children t t.Root = [child]
    · obtain ⟨child, hchild⟩ := hone
      rw [collapseRoot_one fuel t child hchild]
      have hmem : child ∈ kids t.To t.Root := by
        have : child ∈ children t t.Root := by rw [hchild]; simp
        exact this
      have hsub : ∀ p k, k ∈ kids (mapErase t.To t.Root) p → k ∈ kids t.To p :=
        fun p k h => (kids_mapErase t.To t.Root p k h).1
      obtain ⟨i1, i2, i3⟩ := ih
        { Nodes := mapErase t.Nodes t.Root, To := mapErase t.To t.Root, Root := child }
        (fun p k h => hr p k (hsub p k h))
      refine ⟨?_, fun p k h => hsub p k (i2 p k h), ?_⟩
      · exact reach_trans t.To _ _ _ (reach_child t.To t.Root child hmem)
          (reach_mono _ _ hsub _ _ i1)
      · intro x hx
        have hle := reach_rank _ rank (fun p k h => hr p k (hsub p k h)) _ _ i1
        have hlt := hr t.Root child hmem
        have hne : ¬ t.Root = x := by
          intro h
          rw [← h] at hx
          simp only at hle
          omega
        obtain ⟨j1, j2⟩ := i3 x hx
        simp only [mapGet_mapErase, hne, if_false] at j1 j2
        exact ⟨j1, j2⟩
    · rw [collapseRoot_keep fuel t (fun c hc => hone ⟨c, hc⟩)]
      exact ⟨Reach.refl, fun _ _ h => h, fun _ _ => ⟨rfl, rfl⟩⟩

/-- The fuel of `CollapseRoot` suffices: the loop ends because the root it has
reached does not have exactly one child. -/
theorem collapseRoot_done (fuel : Nat) (t : Tree) (hf : t.To.length ≤ fuel) :
    ∀ c, children (collapseRoot fuel t) (collapseRoot fuel t).Root ≠ [c] := by
  induction fuel generalizing t with
  | zero =>
    intro c hc
    have hnil : t.To = [] := List.length_eq_zero.mp (Nat.le_zero.mp hf)
    simp [collapseRoot, children, kids, hnil, mapGet] at hc
  | succ fuel ih =>
    by_cases hone : ∃ child, children t t.Root = [child]
    · obtain ⟨child, hchild⟩ := hone
      rw [collapseRoot_one fuel t child hchild]
      apply ih
      have hget : mapGet t.To t.Root = some [child] := by
        unfold children kids at hchild
        cases hg : mapGet t.To t.Root with
        | none => rw [hg] at hchild; simp at hchild
        | some cs => rw [hg] at hchild; simp only at hchild; rw [hchild]
      have := mapErase_length t.To t.Root [child] hget
      simp only
      omega
    · rw [collapseRoot_keep fuel t (fun c hc => hone ⟨c, hc⟩)]
      exact fun c hc => hone ⟨c, hc⟩

theorem update_sizeAt (bc : Nat → ℚ × String) (root : String) (order : List String)
    (t : Tree) (y : String) :
    sizeAt (updateNodeNamesWithByteSize bc root order t) y = sizeAt t y
      ∧ present (updateNodeNamesWithByteSize bc root order t) y = present t y := by
  have h1 := mapGet_map (fun _ (n : Node) => n.frame)
    (updateNodeNamesWithByteSize bc root order t).Nodes y
  have h2 := mapGet_map (fun _ (n : Node) => n.frame) t.Nodes y
  rw [(update_frames bc root order t).1, h2] at h1
  unfold sizeAt present
  cases ha : mapGet (updateNodeNamesWithByteSize bc root order t).Nodes y with
  | none =>
    cases hb : mapGet t.Nodes y with
    | none => exact ⟨rfl, rfl⟩
    | some n => rw [ha, hb] at h1; simp at h1
  | some n1 =>
    cases hb : mapGet t.Nodes y with
    | none => rw [ha, hb] at h1; simp at h1
    | some n =>
      rw [ha, hb] at h1
      simp only [Option.map_some', Option.some.injEq, Node.frame, Prod.mk.injEq] at h1
      exact ⟨h1.2.1.symm, rfl⟩


/-! ## The imputation invariant of the tree that `main` hands on -/

theorem imputedTree_eq {S E U : Type} (d : Deps S E U) (v : Vars) (symtabFile : S)
    (hI : d.ImputeSize = ImputeSize) :
    imputedTree d v symtabFile = ImputeSize 0 (convertedTree d v symtabFile) := by
  have hfr : Frame (convertedTree d v symtabFile) (ImputeSize 0 (convertedTree d v symtabFile)) :=
    frame_imputeNode 0 _ _ _
  apply tree_ext
  · simp [imputedTree, hI]
  · simp [imputedTree, hI]
  · simp only [imputedTree]
    exact hfr.2.1.symm

/-- C6 as stated fails on the normalizer that the spec describes: for the
records `10 T main.f`, `5 T main.f.func1`, `1 T main.g` the tree that `main`
hands on has the root `main` (11 bytes, the sum of its children), and the
internal node `f` keeps its own size 10, while the sizes of its children sum
to 5. -/
theorem imputation_invariant_counterexample :
    (normalizedTree (testDeps nestedInput) mapKeys registered ()).Root = "/main"
      ∧ mapGet (normalizedTree (testDeps nestedInput) mapKeys registered ()).Nodes "/main/f"
          = some ⟨"/main/f", "f 10.00B", 10, 0, false⟩
      ∧ children (normalizedTree (testDeps nestedInput) mapKeys registered ()) "/main/f"
          = ["/main/f/func1"]
      ∧ ((children (normalizedTree (testDeps nestedInput) mapKeys registered ()) "/main/f").map
            (sizeAt (normalizedTree (testDeps nestedInput) mapKeys registered ()))).sum = 5
      ∧ ¬ (sizeAt (normalizedTree (testDeps nestedInput) mapKeys registered ()) "/main/f"
            = ((children (normalizedTree (testDeps nestedInput) mapKeys registered ())
                  "/main/f").map
                (sizeAt (normalizedTree (testDeps nestedInput) mapKeys registered ()))).sum) := by
  decide!

/-- C6, amended: with the imputation and the root collapsing that the spec
describes, on a converter output whose edges descend, every internal node of
the tree that `main` prints or lays out whose size was unset (zero) in the
converter output has the sum of the sizes of its direct children; an internal
node whose size was set keeps that size. -/
theorem imputation_invariant_of_unset_nodes {S E U : Type} (d : Deps S E U)
    (range1 : GoMap Node → List String) (v : Vars) (symtabFile : S) (rank : String → Nat)
    (key : String) (node : Node)
    (hI : d.ImputeSize = ImputeSize) (hC : d.CollapseRoot = CollapseRoot)
    (hrank : Ranked (convertedTree d v symtabFile) rank)
    (hreach : Reach (normalizedTree d range1 v symtabFile).To
      (normalizedTree d range1 v symtabFile).Root key)
    (hnode : mapGet (normalizedTree d range1 v symtabFile).Nodes key = some node)
    (hinternal : children (normalizedTree d range1 v symtabFile) key ≠ []) :
    (sizeAt (convertedTree d v symtabFile) key = 0 →
        node.Size = ((children (normalizedTree d range1 v symtabFile) key).map
          (sizeAt (normalizedTree d range1 v symtabFile))).sum)
      ∧ (sizeAt (convertedTree d v symtabFile) key ≠ 0 →
          node.Size = sizeAt (convertedTree d v symtabFile) key)
      ∧ (∀ c, children (normalizedTree d range1 v symtabFile)
            (normalizedTree d range1 v symtabFile).Root ≠ [c]) := by
  -- the stages of the pipeline
  have hfr : Frame (convertedTree d v symtabFile) (ImputeSize 0 (convertedTree d v symtabFile)) :=
    frame_imputeNode 0 _ _ _
  have himp := imputedTree_eq d v symtabFile hI
  have hlab : labelledTree d range1 v symtabFile
      = updateNodeNamesWithByteSize d.ByteCountIEC d.RootNodeName
          (range1 (ImputeSize 0 (convertedTree d v symtabFile)).Nodes)
          (ImputeSize 0 (convertedTree d v symtabFile)) := by
    simp only [labelledTree, himp]
  have hnorm : normalizedTree d range1 v symtabFile
      = collapseRoot (labelledTree d range1 v symtabFile).To.length
          (labelledTree d range1 v symtabFile) := by
    simp only [normalizedTree, hC, CollapseRoot]
  have hupd := update_frames d.ByteCountIEC d.RootNodeName
    (range1 (ImputeSize 0 (convertedTree d v symtabFile)).Nodes)
    (ImputeSize 0 (convertedTree d v symtabFile))
  rw [← hlab] at hupd
  have hTo : (labelledTree d range1 v symtabFile).To = (convertedTree d v symtabFile).To :=
    hupd.2.1.trans hfr.1
  have hRoot : (labelledTree d range1 v symtabFile).Root = (convertedTree d v symtabFile).Root :=
    hupd.2.2.trans hfr.2.1
  have hsz : ∀ y, sizeAt (labelledTree d range1 v symtabFile) y
      = sizeAt (ImputeSize 0 (convertedTree d v symtabFile)) y := by
    intro y
    rw [hlab]
    exact (update_sizeAt _ _ _ _ y).1
  have hpr : ∀ y, present (labelledTree d range1 v symtabFile) y
      = present (convertedTree d v symtabFile) y := by
    intro y
    rw [hlab, (update_sizeAt _ _ _ _ y).2]
    exact hfr.2.2.1 y
  have hr2 : ∀ p k, k ∈ kids (labelledTree d range1 v symtabFile).To p → rank k < rank p := by
    rw [hTo]
    exact hrank.1
  obtain ⟨c1, c2, c3⟩ := collapseRoot_spec rank
    (labelledTree d range1 v symtabFile).To.length (labelledTree d range1 v symtabFile) hr2
  rw [← hnorm] at c1 c2 c3
  -- the node `key` and its children are the same in the last two trees
  have hrT : ∀ p k, k ∈ kids (normalizedTree d range1 v symtabFile).To p → rank k < rank p :=
    fun p k h => hr2 p k (c2 p k h)
  have hkey : rank key ≤ rank (normalizedTree d range1 v symtabFile).Root :=
    reach_rank _ rank hrT _ _ hreach
  have hkids : children (normalizedTree d range1 v symtabFile) key
      = children (convertedTree d v symtabFile) key := by
    have h1 : kids (normalizedTree d range1 v symtabFile).To key
        = kids (labelledTree d range1 v symtabFile).To key := by
      unfold kids
      rw [(c3 key hkey).2]
    have h2 : kids (labelledTree d range1 v symtabFile).To key
        = kids (convertedTree d v symtabFile).To key := by rw [hTo]
    exact h1.trans h2
  have hchild : ∀ c ∈ children (convertedTree d v symtabFile) key,
      sizeAt (normalizedTree d range1 v symtabFile) c
        = sizeAt (ImputeSize 0 (convertedTree d v symtabFile)) c := by
    intro c hc
    have hlt : rank c < rank key := hrank.1 key c hc
    have hget := (c3 c (by omega)).1
    rw [← hsz c]
    unfold sizeAt
    rw [hget]
  have hnode2 : mapGet (labelledTree d range1 v symtabFile).Nodes key = some node := by
    rw [← (c3 key hkey).1]
    exact hnode
  have hsize : node.Size = sizeAt (ImputeSize 0 (convertedTree d v symtabFile)) key := by
    rw [← hsz key]
    simp [sizeAt, hnode2]
  have hpres : present (convertedTree d v symtabFile) key = true := by
    rw [← hpr key]
    simp [present, hnode2]
  have hreach0 : Reach (convertedTree d v symtabFile).To (convertedTree d v symtabFile).Root
      key := by
    have h := reach_trans _ _ _ _ c1 (reach_mono _ _ c2 _ _ hreach)
    rw [hTo, hRoot] at h
    exact h
  obtain ⟨s1, s2⟩ := ImputeSize_sum 0 rank (convertedTree d v symtabFile) hrank key hreach0 hpres
  refine ⟨?_, ?_, ?_⟩
  · intro h0
    rw [hkids] at hinternal ⊢
    rw [hsize, s1 h0 hinternal]
    exact congrArg List.sum (List.map_congr_left (fun c hc => (hchild c hc).symm))
  · intro hne
    rw [hsize, s2 hne]
  · rw [hnorm]
    exact collapseRoot_done _ _ (Nat.le_refl _)

/-- C6 amended, on the sample input: the root, unset in the converter output,
has the size 3584 = 2048 + 1536 of its two children. -/
theorem imputation_invariant_of_unset_nodes_witness :
    (3584 : ℚ) = ((children (normalizedTree (testDeps sampleInput) mapKeys registered ()) "").map
      (sizeAt (normalizedTree (testDeps sampleInput) mapKeys registered ()))).sum := by
  have hrank : Ranked (convertedTree (testDeps sampleInput) registered ()) sampleRank := by
    refine ⟨?_, by decide⟩
    intro p c hc
    have hp : p = "" := by
      by_contra hp
      have hne : ¬ "" = p := fun h => hp h.symm
      simp [children, kids, convertedTree, testDeps, sampleInput, mapGet, hne] at hc
    subst hp
    have hc2 : c = "/a" ∨ c = "/b" := by
      simpa [children, kids, convertedTree, testDeps, sampleInput, mapGet] using hc
    rcases hc2 with h | h <;> subst h <;> decide
  exact (imputation_invariant_of_unset_nodes (testDeps sampleInput) mapKeys registered ()
    sampleRank "" ⟨"", "3.50KiB", 3584, 0, false⟩ rfl rfl hrank Reach.refl (by decide!)
    (by decide!)).1 (by decide!)

/-! ## The label of the root -/

theorem CollapseRoot_keep (t : Tree) (h : ∀ c, children t t.Root ≠ [c]) :
    CollapseRoot t = t := by
  unfold CollapseRoot
  cases t.To.length with
  | zero => rfl
  | succ fuel => exact collapseRoot_keep fuel t h

/-- C9 as stated fails on the imputation that the spec describes: for the
records `10 T a.f`, `5 T a.f.func1`, `1 T b.g` the root has two children and is
kept, and it is labelled `11.00B`, the sum of the sizes of its two children,
while the sizes of the symbols of the tree total 16 bytes. -/
theorem root_label_total_counterexample :
    (normalizedTree (testDeps totalInput) mapKeys registered ()).Root = ""
      ∧ children (normalizedTree (testDeps totalInput) mapKeys registered ()) "" = ["/a", "/b"]
      ∧ mapGet (normalizedTree (testDeps totalInput) mapKeys registered ()).Nodes ""
          = some ⟨"", "11.00B", 11, 0, false⟩
      ∧ symbolTotal totalInput = 16
      ∧ sizeLabel byteCountIEC (symbolTotal totalInput) = "16.00B"
      ∧ ¬ (sizeAt (normalizedTree (testDeps totalInput) mapKeys registered ()) ""
            = symbolTotal totalInput) := by
  decide!

/-- C9, amended: in `main` the node stored under `symtab.RootNodeName`, with a
size in the range of `uint`, leaves `updateNodeNamesWithByteSize` with the name
`<count><suffix>B` of the floor of its own size, the size it has in the tree
that `ImputeSize` returned; the name has no name part and does not depend on
the previous name.  With the imputation and the root collapsing that the spec
describes, a root that does not have exactly one child is kept with that label
in the tree that `main` hands on, and the size in the label of an unset root
is the sum of the sizes that its direct children have after imputation. -/
theorem root_labelled_with_imputed_size {S E U : Type} (d : Deps S E U)
    (range1 : GoMap Node → List String) (v : Vars) (symtabFile : S) (node : Node)
    (hnd : (range1 (imputedTree d v symtabFile).Nodes).Nodup)
    (hmem : d.RootNodeName ∈ range1 (imputedTree d v symtabFile).Nodes)
    (hget : mapGet (imputedTree d v symtabFile).Nodes d.RootNodeName = some node)
    (hlo : 0 ≤ node.Size) (hhi : node.Size < 2 ^ 64) :
    ∃ n : Nat, (n : ℚ) ≤ node.Size ∧ node.Size < (n : ℚ) + 1 ∧ n < 2 ^ 64
      ∧ mapGet (labelledTree d range1 v symtabFile).Nodes d.RootNodeName
          = some { node with
              Name := fmtFixed 2 (d.ByteCountIEC n).1 ++ (d.ByteCountIEC n).2 ++ "B" }
      ∧ fixedText 2 (fmtFixed 2 (d.ByteCountIEC n).1) = true
      ∧ (∀ previous : String,
          (relabel d.ByteCountIEC d.RootNodeName d.RootNodeName
              { node with Name := previous }).Name
            = fmtFixed 2 (d.ByteCountIEC n).1 ++ (d.ByteCountIEC n).2 ++ "B")
      ∧ (d.CollapseRoot = CollapseRoot →
          (labelledTree d range1 v symtabFile).Root = d.RootNodeName →
          (∀ c, children (labelledTree d range1 v symtabFile) d.RootNodeName ≠ [c]) →
          (normalizedTree d range1 v symtabFile).Root = d.RootNodeName
            ∧ mapGet (normalizedTree d range1 v symtabFile).Nodes d.RootNodeName
                = some { node with
                    Name := fmtFixed 2 (d.ByteCountIEC n).1 ++ (d.ByteCountIEC n).2 ++ "B" })
      ∧ (∀ rank : String → Nat, d.ImputeSize = ImputeSize →
          Ranked (convertedTree d v symtabFile) rank →
          (convertedTree d v symtabFile).Root = d.RootNodeName →
          sizeAt (convertedTree d v symtabFile) d.RootNodeName = 0 →
          children (convertedTree d v symtabFile) d.RootNodeName ≠ [] →
          node.Size = ((children (imputedTree d v symtabFile) d.RootNodeName).map
            (sizeAt (imputedTree d v symtabFile))).sum) := by
  have hlab : mapGet (labelledTree d range1 v symtabFile).Nodes d.RootNodeName
      = some { node with
          Name := fmtFixed 2 (d.ByteCountIEC (floorUint node.Size)).1
            ++ (d.ByteCountIEC (floorUint node.Size)).2 ++ "B" } := by
    unfold labelledTree
    simp only []
    rw [update_get_mem _ _ _ _ _ hnd hmem, hget]
    simp [relabel, sizeLabel]
  refine ⟨floorUint node.Size, (floorUint_spec node.Size hlo).1,
    (floorUint_spec node.Size hlo).2, floorUint_lt node.Size hlo hhi, hlab,
    fmtFixed_fixedText _ _, ?_, ?_, ?_⟩
  · intro previous
    simp [relabel, sizeLabel]
  · intro hC hroot hkept
    have hnorm : normalizedTree d range1 v symtabFile = labelledTree d range1 v symtabFile := by
      simp only [normalizedTree, hC]
      apply CollapseRoot_keep
      rw [hroot]
      exact hkept
    rw [hnorm]
    exact ⟨hroot, hlab⟩
  · intro rank hI hrank hroot hzero hkids
    have himp := imputedTree_eq d v symtabFile hI
    have hfr : Frame (convertedTree d v symtabFile)
        (ImputeSize 0 (convertedTree d v symtabFile)) := frame_imputeNode 0 _ _ _
    rw [himp] at hget ⊢
    have hpres : present (convertedTree d v symtabFile) d.RootNodeName = true := by
      rw [← hfr.2.2.1]
      simp [present, hget]
    have hreach : Reach (convertedTree d v symtabFile).To (convertedTree d v symtabFile).Root
        d.RootNodeName := by
      rw [hroot]
      exact Reach.refl
    have hsum := (ImputeSize_sum 0 rank (convertedTree d v symtabFile) hrank d.RootNodeName
      hreach hpres).1 hzero hkids
    have hk : children (ImputeSize 0 (convertedTree d v symtabFile)) d.RootNodeName
        = children (convertedTree d v symtabFile) d.RootNodeName :=
      congrArg (fun edges => kids edges d.RootNodeName) hfr.1
    rw [hk, ← hsum]
    simp [sizeAt, hget]

/-- C9 amended, on a tree with fractional sizes: the kept root, imputed to
2048.5 + 1536.25 = 3584.75 bytes, is labelled with the count of 3584 bytes,
`3.50KiB`, in the tree that `main` hands on. -/
theorem root_labelled_with_imputed_size_witness :
    mapGet (normalizedTree (testDeps fractionInput) mapKeys registered ()).Nodes ""
        = some ⟨"", "3.50KiB", 14339 / 4, 0, false⟩
      ∧ (14339 / 4 : ℚ)
          = ((children (imputedTree (testDeps fractionInput) registered ()) "").map
              (sizeAt (imputedTree (testDeps fractionInput) registered ()))).sum
      ∧ floorUint (14339 / 4) = 3584 := by
  obtain ⟨n, h1, h2, _, _, _, _, hkeep, hsum⟩ :=
    root_labelled_with_imputed_size (testDeps fractionInput) mapKeys registered ()
      ⟨"", "", 14339 / 4, 0, false⟩ (by decide!) (by decide!) (by decide!) (by decide!)
      (by decide!)
  have hn : n = 3584 := by
    have h3 : (n : ℚ) ≤ 14339 / 4 := h1
    have h4 : (14339 / 4 : ℚ) < (n : ℚ) + 1 := h2
    have h5 : (n : ℚ) < 3585 := by linarith
    have h6 : (3583 : ℚ) < (n : ℚ) := by linarith
    have h7 : n < 3585 := by exact_mod_cast h5
    have h8 : 3583 < n := by exact_mod_cast h6
    omega
  subst hn
  have hrank : Ranked (convertedTree (testDeps fractionInput) registered ()) fractionRank := by
    refine ⟨?_, by decide⟩
    intro p c hc
    have hp : p = "" := by
      by_contra hp
      have hne : ¬ "" = p := fun h => hp h.symm
      simp [children, kids, convertedTree, testDeps, fractionInput, mapGet, hne] at hc
    subst hp
    have hc2 : c = "/a" ∨ c = "/b" := by
      simpa [children, kids, convertedTree, testDeps, fractionInput, mapGet] using hc
    rcases hc2 with h | h <;> subst h <;> decide
  have hkids : ∀ c, children (labelledTree (testDeps fractionInput) mapKeys registered ()) ""
      ≠ [c] := by
    intro c hc
    have hl : children (labelledTree (testDeps fractionInput) mapKeys registered ()) ""
        = ["/a", "/b"] := by decide!
    rw [hl] at hc
    simp at hc
  exact ⟨((hkeep rfl (by decide!) hkids).2).trans (by decide!),
    hsum fractionRank rfl hrank rfl (by decide!) (by decide!), by decide!⟩

end BinsizeTreemap
